import Mathlib

/-!
Verification of the datatest validation/comparison core (`datatest/require.py`)
and the composite-source summation (`datatest/sources/multi.py`).

The Python source is shallowly embedded: pure helper functions become Lean
functions, Python exceptions become `Except` errors, the `NOTFOUND` sentinel
becomes a dedicated constructor, and lazy generators are evaluated eagerly
(the claims under study do not depend on evaluation order, only on the
produced values and raised errors).
-/

namespace Datatest

/-! ## Element universe

`El` models the `BaseElement` scalars that flow through the comparison
engine: ints, strings and Python `None`.  (Non-element rows, which the
engine would unpack as positional predicate arguments, are outside this
universe.)  The absent-data sentinel `NOTFOUND` is modelled at the
`Option El` level (`Option.none`) and, for whole data values, by
`DataVal.notfound`, because the code distinguishes it by identity. -/

inductive El where
  | int (n : Int)
  | str (s : String)
  | none
deriving DecidableEq, Repr

/-- A data value handed to a require-function: the `NOTFOUND` sentinel, a
single `BaseElement`, or a flat (ordered) collection of elements. -/
inductive DataVal where
  | notfound
  | elem (e : El)
  | coll (xs : List El)
deriving DecidableEq, Repr

/-- The difference taxonomy of `datatest.errors` (not under `src/`):
`Missing`, `Extra`, `Invalid(actual, expected)` with optional slots, and the
numeric `Deviation(difference, expected)`.  An omitted/absent slot is
`Option.none`. -/
inductive Diff where
  | missing (v : El)
  | extra (v : El)
  | invalid (actual : Option El) (expected : Option El)
  | deviation (d : Int) (expected : Option El)
deriving DecidableEq, Repr

/-- Is a value slot numeric?  (`NOTFOUND`/absent and non-int values are not.) -/
def isNumO : Option El → Bool
  | some (.int _) => true
  | _ => false

/-- Numeric content of a slot, absent treated as zero. -/
def numO : Option El → Int
  | some (.int n) => n
  | _ => 0

/-- Modelled from the spec: `_make_difference` lives in `datatest/errors.py`,
which is not under `src/`.  Per spec section 4.1: if both operands are numeric,
or one is the missing sentinel and the other numeric, the result is a
`Deviation` computed as actual minus expected (absent slot treated as zero,
the expected slot kept for display); otherwise `Invalid(actual, expected)`
when `show_expected` and `Invalid(actual)` when not. -/
def makeDifference (actual expected : Option El) (showExpected : Bool) : Diff :=
  if (isNumO actual && isNumO expected)
      || (actual.isNone && isNumO expected)
      || (isNumO actual && expected.isNone) then
    .deviation (numO actual - numO expected) expected
  else if showExpected then
    .invalid actual expected
  else
    .invalid actual Option.none

/-! ## Predicates (`_require_callable`) -/

/-- A value returned by a user predicate: something equal to `True`,
something equal to `False`, a difference instance, or anything else
(a contract violation). -/
inductive Ret where
  | bool (b : Bool)
  | diff (d : Diff)
  | other (desc : String)

/-- A user predicate: its `__name__` and its behaviour, which may raise
(`Except.error`). -/
structure Func where
  name : String
  run : El → Except Unit Ret

/-- Errors propagated out of the comparison engine to its caller. -/
inductive Err where
  | typeErr
  | typeErrNamed (callableName : String) (returned : String)
  | valueErr
  | nameErr
deriving DecidableEq, Repr

/-- The per-element closure `wrapped` inside `_require_callable`
(require.py lines 137-158).  An exception raised by the predicate counts as
`False`; `True` means no difference; `False` yields `Invalid(element)`;
a returned difference passes through; anything else raises a `TypeError`
naming the callable. -/
def wrapped (f : Func) (e : El) : Except Err (Option Diff) :=
  let returnedValue : Ret :=
    match f.run e with
    | .error _ => .bool false
    | .ok v => v
  match returnedValue with
  | .bool true => .ok Option.none
  | .bool false => .ok (some (.invalid (some e) Option.none))
  | .diff d => .ok (some d)
  | .other desc => .error (.typeErrNamed f.name desc)

/-- The listified stream a require-function hands to the mapping walk:
a single difference (`BaseElement`), a listified iterable of differences, or
the key list obtained by listifying the index-pair dictionary that
`_require_sequence` returns. -/
inductive YDiff where
  | one (d : Diff)
  | many (ds : List Diff)
  | seqKeys (ks : List (Nat × Nat))
deriving DecidableEq, Repr

/-- `_require_callable` (require.py lines 133-168).  `NOTFOUND` data yields a
single `Invalid(None)`; single elements are compared once; collections are
compared element-wise, keeping only truthy results.  Generators are modelled
eagerly, so the contract `TypeError` surfaces in the result. -/
def requireCallable (data : DataVal) (f : Func) : Except Err (Option YDiff) :=
  match data with
  | .notfound => .ok (some (.one (.invalid (some El.none) Option.none)))
  | .elem e => (wrapped f e).map (Option.map .one)
  | .coll xs => do
      let results ← xs.mapM (wrapped f)
      let diffs := results.filterMap id
      .ok (if diffs.isEmpty then Option.none else some (.many diffs))

/-! ## Equality comparators (`_require_equality`, `_require_single_equality`)

Python evaluates `other == element`, i.e. the requirement side's own
`__eq__`, which a user class may override and which may raise.  That ambient
equality is passed explicitly as `eqf : Option El → Option El → Except Unit
Bool` (first argument the requirement, second the data). -/

/-- The default equality of the plain modelled values: structural, never
raising; the `NOTFOUND` sentinel is equal only to itself. -/
def pyEqO : Option El → Option El → Except Unit Bool :=
  fun a b => .ok (a == b)

/-- `_require_single_equality` (require.py lines 197-203): one comparison,
a raised exception treated as inequality, difference built with
`show_expected` defaulting to true. -/
def requireSingleEquality (eqf : Option El → Option El → Except Unit Bool)
    (data other : Option El) : Option Diff :=
  match eqf other data with
  | .ok true => Option.none
  | .ok false => some (makeDifference data other true)
  | .error _ => some (makeDifference data other true)

/-- The per-element closure `func` inside `_require_equality`
(require.py lines 181-187): `show_expected` is false here. -/
def equalityFunc (eqf : Option El → Option El → Except Unit Bool)
    (other : Option El) (e : El) : Option Diff :=
  match eqf other (some e) with
  | .ok true => Option.none
  | .ok false => some (makeDifference (some e) other false)
  | .error _ => some (makeDifference (some e) other false)

/-- `_require_equality` (require.py lines 177-194).  `NOTFOUND` data yields a
single difference built with `show_expected=False`; a collection is compared
element-wise.  Iterating a single scalar is a Python `TypeError`; that case is
unreachable through the dispatcher, which sends `BaseElement` data to
`_require_single_equality` instead. -/
def requireEquality (eqf : Option El → Option El → Except Unit Bool)
    (data : DataVal) (other : Option El) : Except Err (Option YDiff) :=
  match data with
  | .notfound => .ok (some (.one (makeDifference Option.none other false)))
  | .elem _ => .error .typeErr
  | .coll xs =>
      let diffs := xs.filterMap (equalityFunc eqf other)
      .ok (if diffs.isEmpty then Option.none else some (.many diffs))

/-! ## Set comparator (`_require_set`) -/

/-- `_require_set` (require.py lines 109-130).  The requirement set is
modelled as a list (Python set iteration); building Python sets from the data
is modelled with `List.dedup`.  `NOTFOUND` data becomes an empty collection
and a single element a one-element collection.  Returns the chained
`Missing` then `Extra` differences, or `none` when both parts are empty. -/
def requireSet (data : DataVal) (requirementSet : List El) : Option (List Diff) :=
  let elems : List El :=
    match data with
    | .notfound => []
    | .elem e => [e]
    | .coll xs => xs
  let matchingElements := (elems.filter (fun e => e ∈ requirementSet)).dedup
  let extraElements := (elems.filter (fun e => e ∉ requirementSet)).dedup
  let missingElements := requirementSet.filter (fun r => r ∉ matchingElements)
  if missingElements.isEmpty && extraElements.isEmpty then
    Option.none
  else
    some (missingElements.map .missing ++ extraElements.map .extra)

/-! ## Requirement dispatch by runtime shape (C2)

`_get_msg_and_func` (require.py lines 206-234) tests the requirement's shape
with independent `isinstance`/`callable` checks, and `_get_difference_info`
(lines 278-299) tests `isinstance(requirement, Mapping)` before ever calling
`_get_msg_and_func`.  Because Python classes can satisfy several of these
checks at once, the shape of a requirement is modelled as independent boolean
flags. -/

structure PyShape where
  isStr : Bool
  isSequence : Bool
  isSet : Bool
  isCallable : Bool
  isRegex : Bool
  isMapping : Bool
deriving DecidableEq, Fintype, Repr

/-- The comparison strategies the engine can select. -/
inductive Strategy where
  | sequenceCmp
  | setCmp
  | callableCmp
  | regexCmp
  | mappingCmp
  | singleEqualityCmp
  | multiEqualityCmp
deriving DecidableEq, Repr

/-- `_get_msg_and_func` (require.py lines 206-234): non-string sequence,
then set, then callable, then regex; otherwise equality, split on whether
the data is a single `BaseElement`. -/
def getMsgAndFuncSelect (dataIsElement : Bool) (r : PyShape) : Strategy :=
  if !r.isStr && r.isSequence then .sequenceCmp
  else if r.isSet then .setCmp
  else if r.isCallable then .callableCmp
  else if r.isRegex then .regexCmp
  else if dataIsElement then .singleEqualityCmp
  else .multiEqualityCmp

/-- The full selection performed by `_get_difference_info`
(require.py lines 278-299): mapping requirements are tested first, all other
shapes go through `_get_msg_and_func`. -/
def getDifferenceInfoSelect (dataIsElement : Bool) (r : PyShape) : Strategy :=
  if r.isMapping then .mappingCmp
  else getMsgAndFuncSelect dataIsElement r

/-- The coarse strategy kinds used by the spec's section 3, which does not
split equality by data shape. -/
inductive StrategyKind where
  | sequenceK | setK | callableK | regexK | mappingK | equalityK
deriving DecidableEq, Repr

def Strategy.kind : Strategy → StrategyKind
  | .sequenceCmp => .sequenceK
  | .setCmp => .setK
  | .callableCmp => .callableK
  | .regexCmp => .regexK
  | .mappingCmp => .mappingK
  | .singleEqualityCmp => .equalityK
  | .multiEqualityCmp => .equalityK

/-- The selection order exactly as the claim states it (spec section 3,
first match wins): (1) ordered non-string sequence, (2) set, (3) callable,
(4) compiled pattern, (5) mapping, (6) equality. -/
def claimedSelect (r : PyShape) : StrategyKind :=
  if !r.isStr && r.isSequence then .sequenceK
  else if r.isSet then .setK
  else if r.isCallable then .callableK
  else if r.isRegex then .regexK
  else if r.isMapping then .mappingK
  else .equalityK

/-- The amended selection order actually implemented: mapping is tested
first (by `_get_difference_info`), and among non-mapping requirements the
order is sequence, set, callable, pattern, equality. -/
def amendedSelect (r : PyShape) : StrategyKind :=
  if r.isMapping then .mappingK
  else if !r.isStr && r.isSequence then .sequenceK
  else if r.isSet then .setK
  else if r.isCallable then .callableK
  else if r.isRegex then .regexK
  else .equalityK

/-- The shape of a callable mapping, e.g. an instance of a `dict` subclass
defining `__call__`: `isinstance(x, Mapping)` and `callable(x)` both hold. -/
def callableMappingShape : PyShape :=
  { isStr := false, isSequence := false, isSet := false,
    isCallable := true, isRegex := false, isMapping := true }

/-! ## Sequence aligner (`_require_sequence`) -/

/-- One opcode run produced by `difflib.SequenceMatcher.get_opcodes()`. -/
structure Opcode where
  tag : String
  i1 : Nat
  i2 : Nat
  j1 : Nat
  j2 : Nat
deriving DecidableEq, Repr

/-- The recursive closure `append_diff` (require.py lines 87-100).  Out-of-
range positions read a default element, as `difflib` opcodes never exceed the
input lengths.  The recursion is guarded by `shortest ≠ 0` in addition to the
source's leftover test: for the indices `difflib` produces (`i1 ≤ i2`,
`j1 ≤ j2`, mixed run nonempty on both sides) `shortest` is never zero, so the
extra conjunct does not change behaviour there; it only makes the Nat-valued
recursion well founded on indices no opcode list can contain. -/
def appendDiff (ds xs : List El) (i1 i2 j1 j2 : Nat) : List ((Nat × Nat) × Diff) :=
  if j1 = j2 then
    (List.range' i1 (i2 - i1)).map (fun i => ((i, j1), Diff.extra (ds.getD i El.none)))
  else if i1 = i2 then
    (List.range' j1 (j2 - j1)).map (fun j => ((i1, j), Diff.missing (xs.getD j El.none)))
  else
    let shortest := min (i2 - i1) (j2 - j1)
    let invalids := ((List.range' i1 shortest).zip (List.range' j1 shortest)).map
      (fun p => ((p.1, p.2),
        Diff.invalid (some (ds.getD p.1 El.none)) (some (xs.getD p.2 El.none))))
    if shortest ≠ 0 ∧ (i1 + shortest ≠ i2 ∨ j1 + shortest ≠ j2) then
      invalids ++ appendDiff ds xs (i1 + shortest) i2 (j1 + shortest) j2
    else
      invalids
termination_by (i2 - i1) + (j2 - j1)
decreasing_by
  rename_i h
  simp only [ne_eq] at h
  omega

/-- The signature of the `difflib.SequenceMatcher` opcode computation, an
external library dependency treated as an oracle. -/
abbrev OpcodeOracle := List El → List El → List Opcode

/-- `_require_sequence` (require.py lines 59-106).  `BaseElement` data and
the `NOTFOUND` sentinel are not sequence types, so they raise `ValueError`;
the modelled elements are hashable, so the deep-hash fallback of lines 79-84
is never taken; the `differences` dictionary, whose keys from distinct
non-equal runs are disjoint, is modelled as its entry list in insertion
order.  Returns `none` when no differences were recorded. -/
def requireSequence (sm : OpcodeOracle) (data : DataVal) (sequence : List El) :
    Except Err (Option (List ((Nat × Nat) × Diff))) :=
  match data with
  | .coll ds =>
      let ops := sm ds sequence
      let differences := ops.foldl
        (fun acc op =>
          if op.tag = "equal" then acc
          else acc ++ appendDiff ds sequence op.i1 op.i2 op.j1 op.j2) []
      .ok (if differences.isEmpty then Option.none else some differences)
  | _ => .error .valueErr

/-- The claim's description of one non-equal opcode run (spec section 4.3):
pure insertion (`i1 = i2`) yields `Missing(sequence[j])` keyed `(i1, j)`;
pure removal (`j1 = j2`) yields `Extra(data[i])` keyed `(i, j1)`; a mixed
replace pairwise-zips the shorter span into `Invalid(data[i], sequence[j])`
keyed `(i, j)` and classifies the leftover tail as a pure insertion or
removal. -/
def claimRunDiffs (ds xs : List El) (i1 i2 j1 j2 : Nat) : List ((Nat × Nat) × Diff) :=
  if i1 = i2 then
    (List.range' j1 (j2 - j1)).map (fun j => ((i1, j), Diff.missing (xs.getD j El.none)))
  else if j1 = j2 then
    (List.range' i1 (i2 - i1)).map (fun i => ((i, j1), Diff.extra (ds.getD i El.none)))
  else
    let s := min (i2 - i1) (j2 - j1)
    ((List.range s).map (fun k => ((i1 + k, j1 + k),
        Diff.invalid (some (ds.getD (i1 + k) El.none)) (some (xs.getD (j1 + k) El.none)))))
      ++ (if i1 + s ≠ i2 then
            (List.range' (i1 + s) (i2 - (i1 + s))).map
              (fun i => ((i, j2), Diff.extra (ds.getD i El.none)))
          else if j1 + s ≠ j2 then
            (List.range' (j1 + s) (j2 - (j1 + s))).map
              (fun j => ((i2, j), Diff.missing (xs.getD j El.none)))
          else [])

/-- The claim's description of the whole sequence-comparison result: the
differences collected from all non-equal opcode runs, as a mapping from
`(data_index, sequence_index)` to one difference, or `none` when empty. -/
def claimSeqResult (ds xs : List El) (ops : List Opcode) :
    Option (List ((Nat × Nat) × Diff)) :=
  let l := (ops.filter (fun op => op.tag ≠ "equal")).flatMap
    (fun op => claimRunDiffs ds xs op.i1 op.i2 op.j1 op.j2)
  if l.isEmpty then Option.none else some l

/-! ## Requirement values and the per-key dispatch used by the mapping walk -/

/-- A compiled pattern: `re.compile(...).search`, which raises on non-string
input. -/
structure Rgx where
  pattern : String
  search : El → Except Unit Bool

/-- `_require_regex` (require.py lines 171-174): predicate comparison through
a lambda testing that the pattern's search succeeded. -/
def requireRegex (data : DataVal) (r : Rgx) : Except Err (Option YDiff) :=
  requireCallable data { name := "<lambda>", run := fun e => (r.search e).map Ret.bool }

/-- A requirement value, in the closed universe the mapping walk can meet:
an ordered non-string sequence, a set, a callable, a compiled pattern, or a
plain value (where `Option.none` is the `NOTFOUND` default produced by
`mapping.get(key, NOTFOUND)`).  Overlapping runtime shapes, which this
tagged union cannot express, are analysed with `PyShape` above. -/
inductive Req where
  | rseq (xs : List El)
  | rset (s : List El)
  | rfunc (f : Func)
  | rregex (r : Rgx)
  | rscalar (v : Option El)

/-- The require-function selected by `_get_msg_and_func`, with its captured
requirement payload. -/
inductive RFun where
  | seqF (xs : List El)
  | setF (s : List El)
  | callF (f : Func)
  | regexF (r : Rgx)
  | singleEqF (v : Option El)
  | multiEqF (v : Option El)

/-- Is the data value a single `BaseElement`?  The `NOTFOUND` sentinel is a
non-iterable object and therefore a `BaseElement` by the dataaccess subclass
hook; the mapping walk never dispatches on it (its dispatch argument is
always a value taken from the data items). -/
def DataVal.isElement : DataVal → Bool
  | .elem _ => true
  | .notfound => true
  | .coll _ => false

/-- `_get_msg_and_func` (require.py lines 206-234) on the tagged requirement
universe: each constructor satisfies exactly one of the isinstance checks of
lines 215-228, in the source's order; a plain value falls through to
equality, split on whether the data is a single element. -/
def getMsgAndFunc (data : DataVal) (requirement : Req) : RFun :=
  match requirement with
  | .rseq xs => .seqF xs
  | .rset s => .setF s
  | .rfunc f => .callF f
  | .rregex r => .regexF r
  | .rscalar v => if data.isElement then .singleEqF v else .multiEqF v

/-- Calling the selected require-function and listifying its result the way
the mapping walk does (require.py lines 251-254 and 261-263): a single
difference stays a `BaseElement`, an iterable is listified, and the
index-pair dictionary of `_require_sequence` listifies to its keys. -/
def callRFun (sm : OpcodeOracle) (eqf : Option El → Option El → Except Unit Bool)
    (rf : RFun) (data : DataVal) : Except Err (Option YDiff) :=
  match rf with
  | .seqF xs =>
      (requireSequence sm data xs).map (Option.map (fun l => .seqKeys (l.map Prod.fst)))
  | .setF s => .ok ((requireSet data s).map .many)
  | .callF f => requireCallable data f
  | .regexF r => requireRegex data r
  | .singleEqF v =>
      match data with
      | .elem e => .ok ((requireSingleEquality eqf (some e) v).map .one)
      | .notfound => .ok ((requireSingleEquality eqf Option.none v).map .one)
      | .coll _ => .error .typeErr
  | .multiEqF v => requireEquality eqf data v

/-! ## Mapping comparator (`_apply_mapping_requirement`) -/

/-- Data accepted by the mapping comparator: a mapping, an iterable of
key-value items, or anything else (which raises `TypeError`). -/
inductive MapData where
  | mapD (l : List (String × DataVal))
  | itemsD (l : List (String × DataVal))
  | badD

/-- `mapping.get(key, NOTFOUND)` (require.py line 248). -/
def reqGet (mapping : List (String × Req)) (k : String) : Req :=
  (mapping.lookup k).getD (.rscalar Option.none)

/-- State threaded through the first loop of the mapping walk: the keys seen
in the data, the current value of the loop variable `actual`, and the pairs
yielded so far. -/
structure WalkSt where
  dataKeys : List String
  lastActual : Option DataVal
  out : List (String × YDiff)

/-- `_apply_mapping_requirement` (require.py lines 237-264), with the
generator drained eagerly.  The first loop compares each data item against
its requirement (`NOTFOUND` when the key has none) and yields truthy
differences.  The second loop walks the requirement for keys not seen in the
data; it dispatches on the *stale* loop variable `actual` from the first
loop — when the data was empty that variable was never assigned and Python
raises `UnboundLocalError` (modelled `Err.nameErr`) — and it listifies the
result without a truthiness guard, so a `None` result raises `TypeError`
from `list(None)`. -/
def applyMappingRequirement (sm : OpcodeOracle)
    (eqf : Option El → Option El → Except Unit Bool)
    (data : MapData) (mapping : List (String × Req)) :
    Except Err (List (String × YDiff)) := do
  let dataItems ←
    match data with
    | .mapD l => pure l
    | .itemsD l => pure l
    | .badD => Except.error Err.typeErr
  let st ← dataItems.foldlM
    (fun (st : WalkSt) kv => do
      let key := kv.1
      let actual := kv.2
      let dataKeys := st.dataKeys ++ [key]
      let expected := reqGet mapping key
      let requireFunc := getMsgAndFunc actual expected
      let diff ← callRFun sm eqf requireFunc actual
      let out :=
        match diff with
        | some d => st.out ++ [(key, d)]
        | Option.none => st.out
      pure (⟨dataKeys, some actual, out⟩ : WalkSt))
    (⟨[], Option.none, []⟩ : WalkSt)
  mapping.foldlM
    (fun (out : List (String × YDiff)) kv => do
      let key := kv.1
      let expected := kv.2
      if key ∈ st.dataKeys then
        pure out
      else
        match st.lastActual with
        | Option.none => Except.error Err.nameErr
        | some actual => do
            let requireFunc := getMsgAndFunc actual expected
            let diff ← callRFun sm eqf requireFunc .notfound
            match diff with
            | Option.none => Except.error Err.typeErr
            | some d => pure (out ++ [(key, d)]))
    st.out

/-- A trivial opcode oracle for concrete evaluations that involve no
sequence requirement. -/
def sm0 : OpcodeOracle := fun _ _ => []

/-! ## Deep hash (`_deephash`, require.py lines 21-56)

Python object identity matters here (`already_seen` is keyed by `id(obj)`),
so values are modelled as a heap: a list of objects, a reference being an
index into it.  `atom` stands for any hashable non-tuple object (which
`_hashable_proxy` returns unchanged), `olist`/`oset`/`omap` for the
unhashable compound containers, and `obad` for an unhashable object of any
other type (the `TypeError` branch). -/

inductive Obj where
  | atom (n : Int)
  | olist (rs : List Nat)
  | oset (rs : List Nat)
  | omap (es : List (Int × Nat))
  | obad
deriving DecidableEq, Repr

/-- A hashable proxy: the class tag survives in the constructor
(`obj.__class__, proxy` in the source), and `ptoken t` is the fresh
`object()` memo token numbered `t` within one traversal. -/
inductive Proxy where
  | patom (n : Int)
  | ptoken (t : Nat)
  | plist (ps : List Proxy)
  | pset (ps : List Proxy)
  | pmap (es : List (Int × Proxy))

inductive HErr where
  | fuelOut
  | typeErr
  | badRef
deriving DecidableEq, Repr

/-- The traversal state: `already_seen` as an association list from object
id to token number, and the counter producing fresh tokens. -/
structure HSt where
  seen : List (Nat × Nat)
  next : Nat

/-- `already_seen[obj_id] = object()` (require.py line 37). -/
def HSt.push (st : HSt) (ref : Nat) : HSt :=
  ⟨(ref, st.next) :: st.seen, st.next + 1⟩

mutual

/-- The inner closure `_hashable_proxy` (require.py lines 28-51): hashable
non-tuples exit immediately; a previously seen object id exits with its memo
token; otherwise the id is recorded with a fresh token and the traversal
recurses into the sequence, set or mapping, raising `TypeError` for any
other type.  The recursion is driven by explicit fuel; exhausting it is the
`fuelOut` error, which the termination theorem shows cannot happen with fuel
`h.length + 1` on a well-formed heap. -/
def hashableProxy (h : List Obj) : Nat → Nat → HSt → Except HErr (Proxy × HSt)
  | 0, _, _ => .error .fuelOut
  | fuel + 1, ref, st =>
    match h[ref]? with
    | Option.none => .error .badRef
    | some (.atom n) => .ok (.patom n, st)
    | some (.olist rs) =>
      match st.seen.lookup ref with
      | some t => .ok (.ptoken t, st)
      | Option.none =>
          (proxyList h fuel rs (st.push ref)).map (fun x => (.plist x.1, x.2))
    | some (.oset rs) =>
      match st.seen.lookup ref with
      | some t => .ok (.ptoken t, st)
      | Option.none =>
          (proxyList h fuel rs (st.push ref)).map (fun x => (.pset x.1, x.2))
    | some (.omap es) =>
      match st.seen.lookup ref with
      | some t => .ok (.ptoken t, st)
      | Option.none =>
          (proxyMap h fuel es (st.push ref)).map (fun x => (.pmap x.1, x.2))
    | some .obad =>
      match st.seen.lookup ref with
      | some t => .ok (.ptoken t, st)
      | Option.none => .error .typeErr
termination_by fuel _ _ => (fuel, 0)

/-- The generator expression building the tuple/frozenset of child proxies,
threading the shared memo table left to right. -/
def proxyList (h : List Obj) : Nat → List Nat → HSt → Except HErr (List Proxy × HSt)
  | _, [], st => .ok ([], st)
  | fuel, r :: rs, st =>
    match hashableProxy h fuel r st with
    | .error e => .error e
    | .ok (p, st1) =>
      match proxyList h fuel rs st1 with
      | .error e => .error e
      | .ok (ps, st2) => .ok (p :: ps, st2)
termination_by fuel rs _ => (fuel, rs.length + 1)

/-- The `(k, _hashable_proxy(v))` generator over mapping items. -/
def proxyMap (h : List Obj) : Nat → List (Int × Nat) → HSt →
    Except HErr (List (Int × Proxy) × HSt)
  | _, [], st => .ok ([], st)
  | fuel, (k, r) :: es, st =>
    match hashableProxy h fuel r st with
    | .error e => .error e
    | .ok (p, st1) =>
      match proxyMap h fuel es st1 with
      | .error e => .error e
      | .ok (qs, st2) => .ok ((k, p) :: qs, st2)
termination_by fuel es _ => (fuel, es.length + 1)

end

/-- `_deephash` (require.py lines 21-56) up to the final `hash(...)` call:
the native-hash attempt succeeds exactly on atoms, where the proxy is the
object itself, so the whole function is the proxy construction with a fresh
memo table.  Fuel `h.length + 1` suffices on well-formed heaps (proved
below). -/
def deephashProxy (h : List Obj) (ref : Nat) : Except HErr Proxy :=
  (hashableProxy h (h.length + 1) ref ⟨[], 0⟩).map Prod.fst

mutual

/-- Python's `hash` on proxies.  `tok` is the run-dependent environment
giving the identity-based hash of each fresh `object()` token; tuple
hashing is order-sensitive, frozenset hashing commutative. -/
def hashP (tok : Nat → Int) : Proxy → Int
  | .patom n => n
  | .ptoken t => tok t
  | .plist ps => 3 + 7 * hashSeq tok ps
  | .pset ps => 5 + hashComm tok ps
  | .pmap es => 11 + hashEntries tok es

def hashSeq (tok : Nat → Int) : List Proxy → Int
  | [] => 1
  | p :: ps => 31 * hashSeq tok ps + hashP tok p

def hashComm (tok : Nat → Int) : List Proxy → Int
  | [] => 0
  | p :: ps => hashP tok p + hashComm tok ps

def hashEntries (tok : Nat → Int) : List (Int × Proxy) → Int
  | [] => 0
  | (k, p) :: es => (k + 13 * hashP tok p) + hashEntries tok es

end

/-- The full `hash(_hashable_proxy(obj))` under the token-hash environment
`tok` of the current run. -/
def deephash (tok : Nat → Int) (h : List Obj) (ref : Nat) : Except HErr Int :=
  (deephashProxy h ref).map (hashP tok)

/-- Every stored reference is a valid heap index. -/
def refsOk (hlen : Nat) : Obj → Bool
  | .atom _ => true
  | .olist rs => rs.all (fun r => r < hlen)
  | .oset rs => rs.all (fun r => r < hlen)
  | .omap es => es.all (fun e => e.2 < hlen)
  | .obad => true

/-- A well-formed heap of the kinds the claims quantify over: references in
range and every object hashable or a sequence, set or mapping. -/
def HeapWF (h : List Obj) : Prop :=
  ∀ o ∈ h, refsOk h.length o = true ∧ o ≠ Obj.obad

/-- How many heap ids the memo table has not seen yet. -/
def unseenCnt (h : List Obj) (st : HSt) : Nat :=
  ((Finset.range h.length).filter (fun i => st.seen.lookup i = Option.none)).card

/-! ### Independently constructed values

A `PyTree` is a description of a compound value; `build` constructs a fresh,
sharing-free copy of it on top of an arbitrary existing heap, the way an
independent Python construction allocates fresh objects at fresh ids. -/

inductive PyTree where
  | tatom (n : Int)
  | tlist (ts : List PyTree)
  | tset (ts : List PyTree)
  | tmap (es : List (Int × PyTree))

mutual

def build : List Obj → PyTree → List Obj × Nat
  | h, .tatom n => (h ++ [.atom n], h.length)
  | h, .tlist ts =>
    let r := buildL h ts
    (r.1 ++ [.olist r.2], r.1.length)
  | h, .tset ts =>
    let r := buildL h ts
    (r.1 ++ [.oset r.2], r.1.length)
  | h, .tmap es =>
    let r := buildM h es
    (r.1 ++ [.omap r.2], r.1.length)

def buildL : List Obj → List PyTree → List Obj × List Nat
  | h, [] => (h, [])
  | h, t :: ts =>
    let r1 := build h t
    let r2 := buildL r1.1 ts
    (r2.1, r1.2 :: r2.2)

def buildM : List Obj → List (Int × PyTree) → List Obj × List (Int × Nat)
  | h, [] => (h, [])
  | h, (k, t) :: es =>
    let r1 := build h t
    let r2 := buildM r1.1 es
    (r2.1, (k, r1.2) :: r2.2)

end

mutual

/-- The proxy a sharing-free value deep-hashes through: a pure function of
the value's structure, with no memo tokens. -/
def treeProxy : PyTree → Proxy
  | .tatom n => .patom n
  | .tlist ts => .plist (treeProxyL ts)
  | .tset ts => .pset (treeProxyL ts)
  | .tmap es => .pmap (treeProxyM es)

def treeProxyL : List PyTree → List Proxy
  | [] => []
  | t :: ts => treeProxy t :: treeProxyL ts

def treeProxyM : List (Int × PyTree) → List (Int × Proxy)
  | [] => []
  | (k, t) :: es => (k, treeProxy t) :: treeProxyM es

end

/-- The deep-hash code of a sharing-free value: independent of the token
environment, since the proxy contains no tokens. -/
def treeHash (t : PyTree) : Int := hashP (fun _ => 0) (treeProxy t)

mutual

/-- Number of objects a fresh construction of the tree allocates. -/
def sizeT : PyTree → Nat
  | .tatom _ => 1
  | .tlist ts => sizeTL ts + 1
  | .tset ts => sizeTL ts + 1
  | .tmap es => sizeTM es + 1

def sizeTL : List PyTree → Nat
  | [] => 0
  | t :: ts => sizeT t + sizeTL ts

def sizeTM : List (Int × PyTree) → Nat
  | [] => 0
  | (_, t) :: es => sizeT t + sizeTM es

end

/-- Structural identity of two heap values (Python `==`), with fuel for
totality on cyclic heaps: element-wise for sequences, mutual containment for
sets, key-wise for mappings. -/
def valueEq (h1 h2 : List Obj) : Nat → Nat → Nat → Bool
  | 0, _, _ => false
  | fuel + 1, r1, r2 =>
    match h1.get? r1, h2.get? r2 with
    | some (.atom a), some (.atom b) => a == b
    | some (.olist rs), some (.olist ss) =>
      rs.length == ss.length &&
        (rs.zip ss).all (fun p => valueEq h1 h2 fuel p.1 p.2)
    | some (.oset rs), some (.oset ss) =>
      rs.all (fun r => ss.any (fun s => valueEq h1 h2 fuel r s)) &&
        ss.all (fun s => rs.any (fun r => valueEq h1 h2 fuel r s))
    | some (.omap es), some (.omap fs) =>
      es.length == fs.length &&
        es.all (fun e => fs.any (fun f => e.1 == f.1 && valueEq h1 h2 fuel e.2 f.2))
    | _, _ => false

/-! ## `MultiSource.sum` (`datatest/sources/multi.py` lines 102-114) -/

/-- One wrapped source, modelled by its responses to the `sum` call under
consideration: `total` is what `source.sum(column)` returns when `keys` is
falsy, `keyed` the per-key dictionary it returns for the given non-empty
`keys` (a Python dict: association list with distinct keys). -/
structure SrcModel where
  total : Int
  keyed : List (String × Int)

/-- `sum_total[key] += val` on a `defaultdict(lambda: 0)`: update in place
when the key exists, otherwise append `0 + val` in insertion order. -/
def dictAdd : List (String × Int) → String → Int → List (String × Int)
  | [], k, v => [(k, v)]
  | (k', v') :: rest, k, v =>
      if k = k' then (k', v' + v) :: rest else (k', v') :: dictAdd rest k v

inductive SumRes where
  | num (n : Int)
  | dict (d : List (String × Int))
deriving DecidableEq, Repr

/-- `MultiSource.sum` (multi.py lines 102-114): query every wrapped source;
with falsy `keys` (modelled: the empty list) return the plain `sum` of the
numeric results, otherwise accumulate every source's dictionary into a
`defaultdict` starting from zero.  The `CompareDict` wrapper lives in the
missing `compare.py` and is represented by the accumulated association
list. -/
def multiSourceSum (keys : List String) (sources : List SrcModel) : SumRes :=
  if keys.isEmpty then
    .num ((sources.map SrcModel.total).foldl (· + ·) 0)
  else
    .dict (sources.foldl
      (fun acc s => s.keyed.foldl (fun a kv => dictAdd a kv.1 kv.2) acc) [])

/-! ## Auxiliary definitions used in the statements and witnesses below -/

/-- Decidable equality on `Except` results, for evaluating the model at
concrete inputs. -/
instance {ε α : Type} [DecidableEq ε] [DecidableEq α] :
    DecidableEq (Except ε α) := fun a b =>
  match a, b with
  | .error e1, .error e2 =>
      if h : e1 = e2 then .isTrue (congrArg Except.error h)
      else .isFalse (fun hc => h (Except.error.inj hc))
  | .ok v1, .ok v2 =>
      if h : v1 = v2 then .isTrue (congrArg Except.ok h)
      else .isFalse (fun hc => h (Except.ok.inj hc))
  | .error _, .ok _ => .isFalse (fun hc => Except.noConfusion hc)
  | .ok _, .error _ => .isFalse (fun hc => Except.noConfusion hc)

/-- Classifier used to state that a difference is (not) an `Invalid`. -/
def Diff.isInvalid : Diff → Bool
  | .invalid _ _ => true
  | _ => false

/-- Values carried by the `Missing` differences of a result list. -/
def missingVals (l : List Diff) : List El :=
  l.filterMap (fun d => match d with | .missing v => some v | _ => Option.none)

/-- Values carried by the `Extra` differences of a result list. -/
def extraVals (l : List Diff) : List El :=
  l.filterMap (fun d => match d with | .extra v => some v | _ => Option.none)

/-- Total of the values a key-value list holds under one key. -/
def keySum (items : List (String × Int)) (k : String) : Int :=
  ((items.filter (fun kv => kv.1 = k)).map Prod.snd).sum

/-- A user equality that raises on every comparison. -/
def eqRaise : Option El → Option El → Except Unit Bool := fun _ _ => .error ()

/-- A user predicate that raises on every element. -/
def fBoom : Func := ⟨"boom", fun _ => .error ()⟩

def fTrue : Func := ⟨"always_true", fun _ => .ok (.bool true)⟩

def fFalse : Func := ⟨"always_false", fun _ => .ok (.bool false)⟩

def fDiff : Func := ⟨"give_diff", fun _ => .ok (.diff (.missing (.int 7)))⟩

def fOther : Func := ⟨"bad_return", fun _ => .ok (.other "5")⟩

/-- Concrete data for the sequence-aligner witness. -/
def dsW : List El := [.int 1, .int 2, .int 4, .int 9]

def xsW : List El := [.int 1, .int 3]

def opsW : List Opcode := [⟨"equal", 0, 1, 0, 1⟩, ⟨"replace", 1, 4, 1, 2⟩]

/-- Concrete sources for the MultiSource witness. -/
def srcsW : List SrcModel :=
  [⟨5, [("a", 3)]⟩, ⟨7, [("a", 1), ("b", 2)]⟩]

/-- `[x, x]` where `x = [1, 2]` is one shared object (heap id 2): the value
`[[1, 2], [1, 2]]` constructed with internal sharing, rooted at id 3. -/
def sharedHeap : List Obj := [.atom 1, .atom 2, .olist [0, 1], .olist [2, 2]]

/-- `[[1, 2], [1, 2]]` constructed from two distinct sublists (ids 2 and 3),
rooted at id 4; structurally equal to the shared variant. -/
def unsharedHeap : List Obj :=
  [.atom 1, .atom 2, .olist [0, 1], .olist [0, 1], .olist [2, 3]]

/-- One possible identity-based hash assignment for the fresh `object()`
tokens of a traversal. -/
def tok0 : Nat → Int := fun t => 1000000 + t

/-- A self-referential list: `x = []; x.append(x)`. -/
def cyclicHeap : List Obj := [.olist [0]]

/-- Success of `_hashable_proxy` on one reference, with the memo table
shrinking the unseen count. -/
def PSucc (fuel : Nat) (h : List Obj) : Prop :=
  ∀ (st : HSt) (ref : Nat), ref < h.length → unseenCnt h st + 1 ≤ fuel →
    ∃ p st', hashableProxy h fuel ref st = .ok (p, st')
      ∧ unseenCnt h st' ≤ unseenCnt h st

/-- Success of the child-list traversal. -/
def PLSucc (fuel : Nat) (h : List Obj) : Prop :=
  ∀ (st : HSt) (rs : List Nat), (∀ r ∈ rs, r < h.length) →
    unseenCnt h st + 1 ≤ fuel →
    ∃ ps st', proxyList h fuel rs st = .ok (ps, st')
      ∧ unseenCnt h st' ≤ unseenCnt h st

/-- Success of the mapping-items traversal. -/
def PMSucc (fuel : Nat) (h : List Obj) : Prop :=
  ∀ (st : HSt) (es : List (Int × Nat)), (∀ e ∈ es, e.2 < h.length) →
    unseenCnt h st + 1 ≤ fuel →
    ∃ qs st', proxyMap h fuel es st = .ok (qs, st')
      ∧ unseenCnt h st' ≤ unseenCnt h st

/-- The traversal of a freshly built, sharing-free value yields its pure
structural proxy, touching only the ids of the freshly built region. -/
def BuildTrav (t : PyTree) : Prop :=
  ∀ (pre suf : List Obj) (st : HSt) (fuel : Nat),
    (∀ i, pre.length ≤ i → i < ((build pre t).1).length →
      st.seen.lookup i = Option.none) →
    sizeT t + 1 ≤ fuel →
    ∃ st', hashableProxy ((build pre t).1 ++ suf) fuel ((build pre t).2) st
        = .ok (treeProxy t, st')
      ∧ ∀ i, st'.seen.lookup i ≠ Option.none →
          st.seen.lookup i ≠ Option.none
          ∨ (pre.length ≤ i ∧ i < ((build pre t).1).length)

/-- List version of `BuildTrav` for the children of one node. -/
def BuildTravL (ts : List PyTree) : Prop :=
  ∀ (pre suf : List Obj) (st : HSt) (fuel : Nat),
    (∀ i, pre.length ≤ i → i < ((buildL pre ts).1).length →
      st.seen.lookup i = Option.none) →
    sizeTL ts + 1 ≤ fuel →
    ∃ st', proxyList ((buildL pre ts).1 ++ suf) fuel ((buildL pre ts).2) st
        = .ok (treeProxyL ts, st')
      ∧ ∀ i, st'.seen.lookup i ≠ Option.none →
          st.seen.lookup i ≠ Option.none
          ∨ (pre.length ≤ i ∧ i < ((buildL pre ts).1).length)

/-- Mapping-items version of `BuildTrav`. -/
def BuildTravM (es : List (Int × PyTree)) : Prop :=
  ∀ (pre suf : List Obj) (st : HSt) (fuel : Nat),
    (∀ i, pre.length ≤ i → i < ((buildM pre es).1).length →
      st.seen.lookup i = Option.none) →
    sizeTM es + 1 ≤ fuel →
    ∃ st', proxyMap ((buildM pre es).1 ++ suf) fuel ((buildM pre es).2) st
        = .ok (treeProxyM es, st')
      ∧ ∀ i, st'.seen.lookup i ≠ Option.none →
          st.seen.lookup i ≠ Option.none
          ∨ (pre.length ≤ i ∧ i < ((buildM pre es).1).length)

/-- Shape of a fresh build: a pure extension of the base heap, with known
length and root position. -/
def BShape (t : PyTree) : Prop :=
  ∀ pre : List Obj, (∃ δ, (build pre t).1 = pre ++ δ)
    ∧ ((build pre t).1).length = pre.length + sizeT t
    ∧ (build pre t).2 = pre.length + (sizeT t - 1)

def BShapeL (ts : List PyTree) : Prop :=
  ∀ pre : List Obj, (∃ δ, (buildL pre ts).1 = pre ++ δ)
    ∧ ((buildL pre ts).1).length = pre.length + sizeTL ts

def BShapeM (es : List (Int × PyTree)) : Prop :=
  ∀ pre : List Obj, (∃ δ, (buildM pre es).1 = pre ++ δ)
    ∧ ((buildM pre es).1).length = pre.length + sizeTM es

/-! # Theorems -/

/-! ## C2 — requirement dispatch order -/

/-- C2, counterexample.  A requirement that is simultaneously a mapping and
callable (an instance of a `dict` subclass defining `__call__`) is sent to
the mapping comparator by `_get_difference_info`, whereas the claimed §3
priority order — callable third, mapping only fifth — selects predicate
comparison.  The dispatch is therefore not in the §3 order. -/
theorem c2_dispatch_counterexample :
    (getDifferenceInfoSelect false callableMappingShape).kind = StrategyKind.mappingK
    ∧ claimedSelect callableMappingShape = StrategyKind.callableK
    ∧ (getDifferenceInfoSelect false callableMappingShape).kind
        ≠ claimedSelect callableMappingShape := by
  decide

/-- C2, amended: the strategy is selected by runtime shape inspection with
first match winning, but the mapping test comes first (performed by
`_get_difference_info` before `_get_msg_and_func` runs); among non-mapping
requirements the order is ordered non-string sequence, set, callable,
compiled pattern, equality — so the §3 order holds exactly for requirements
that are not simultaneously a mapping and one of the shapes 1-4. -/
theorem c2_dispatch_amended :
    ∀ (dataIsElement : Bool) (r : PyShape),
      (getDifferenceInfoSelect dataIsElement r).kind = amendedSelect r := by
  decide

/-! ## C9 — empty collections vacuously satisfy -/

/-- C9: comparing an empty data collection (neither a single element nor the
`NOTFOUND` sentinel) against any predicate requirement or any equality
requirement returns `None`: no element produces a difference, so the
requirement is vacuously satisfied. -/
theorem c9_empty_collection_vacuous :
    ∀ (f : Func) (eqf : Option El → Option El → Except Unit Bool)
      (other : Option El),
      requireCallable (.coll []) f = .ok Option.none
      ∧ requireEquality eqf (.coll []) other = .ok Option.none := by
  intro f eqf other
  exact ⟨rfl, rfl⟩

/-! ## C8 — predicate return-value contract -/

/-- C8: for every predicate and every data element, a `True` return yields
no difference, a `False` return yields `Invalid(element)`, a returned
difference instance passes through unchanged, and any other return value
raises a `TypeError` naming the predicate. -/
theorem c8_predicate_return_contract :
    ∀ (f : Func) (e : El),
      (f.run e = .ok (.bool true) → wrapped f e = .ok Option.none)
      ∧ (f.run e = .ok (.bool false) →
          wrapped f e = .ok (some (.invalid (some e) Option.none)))
      ∧ (∀ d, f.run e = .ok (.diff d) → wrapped f e = .ok (some d))
      ∧ (∀ desc, f.run e = .ok (.other desc) →
          wrapped f e = .error (.typeErrNamed f.name desc)) := by
  intro f e
  refine ⟨fun h => ?_, fun h => ?_, fun d h => ?_, fun desc h => ?_⟩ <;>
    simp [wrapped, h]

/-- C8 witness: the four return shapes at concrete predicates. -/
theorem c8_predicate_return_contract_witness :
    wrapped fTrue (.int 0) = .ok Option.none
    ∧ wrapped fFalse (.int 0) = .ok (some (.invalid (some (.int 0)) Option.none))
    ∧ wrapped fDiff (.int 0) = .ok (some (.missing (.int 7)))
    ∧ wrapped fOther (.int 0) = .error (.typeErrNamed "bad_return" "5") :=
  ⟨(c8_predicate_return_contract fTrue (.int 0)).1 rfl,
   (c8_predicate_return_contract fFalse (.int 0)).2.1 rfl,
   (c8_predicate_return_contract fDiff (.int 0)).2.2.1 _ rfl,
   (c8_predicate_return_contract fOther (.int 0)).2.2.2 _ rfl⟩

/-! ## C3 — exceptions during element-wise comparison -/

/-- C3, counterexample.  An equality check that raises is caught and treated
as unequal, but the downgrade goes through `_make_difference`: with data `5`
and requirement `3` (both numeric) the produced difference is
`Deviation(+2, 3)`, not an `Invalid` — refuting the claim that a raising
equality check is *always* downgraded into an `Invalid` difference. -/
theorem c3_exception_counterexample :
    requireSingleEquality eqRaise (some (El.int 5)) (some (El.int 3))
        = some (Diff.deviation 2 (some (El.int 3)))
    ∧ (requireSingleEquality eqRaise (some (El.int 5)) (some (El.int 3))).any
        Diff.isInvalid = false := by
  decide

/-- C3, amended: any exception raised by a user predicate or by a
user-defined equality during element-wise comparison is caught locally and
treated as a `False`/unequal result, never propagated; a predicate exception
is downgraded into `Invalid(element)`, while an equality exception is
downgraded into the difference `_make_difference` builds — an `Invalid`
except when both values are numeric, where it is a `Deviation`. -/
theorem c3_exceptions_caught :
    ∀ (f : Func) (e : El) (eqf : Option El → Option El → Except Unit Bool)
      (a other : Option El),
      (f.run e = .error () → wrapped f e = .ok (some (.invalid (some e) Option.none)))
      ∧ (eqf other a = .error () →
          requireSingleEquality eqf a other = some (makeDifference a other true))
      ∧ (eqf other (some e) = .error () →
          requireEquality eqf (.coll [e]) other
            = .ok (some (.many [makeDifference (some e) other false]))) := by
  intro f e eqf a other
  refine ⟨fun h => ?_, fun h => ?_, fun h => ?_⟩
  · simp [wrapped, h]
  · simp [requireSingleEquality, h]
  · simp [requireEquality, equalityFunc, h]

/-- C3 witness: a raising predicate and a raising equality at concrete
inputs. -/
theorem c3_exceptions_caught_witness :
    wrapped fBoom (El.int 1) = .ok (some (.invalid (some (El.int 1)) Option.none))
    ∧ requireSingleEquality eqRaise (some (El.int 5)) (some (El.int 3))
        = some (makeDifference (some (El.int 5)) (some (El.int 3)) true)
    ∧ requireEquality eqRaise (.coll [El.int 5]) (some (El.int 3))
        = .ok (some (.many [makeDifference (some (El.int 5)) (some (El.int 3)) false])) :=
  ⟨(c3_exceptions_caught fBoom (El.int 1) eqRaise Option.none Option.none).1 rfl,
   (c3_exceptions_caught fBoom (El.int 5) eqRaise (some (El.int 5))
      (some (El.int 3))).2.1 rfl,
   (c3_exceptions_caught fBoom (El.int 5) eqRaise (some (El.int 5))
      (some (El.int 3))).2.2 rfl⟩

/-! ## C5 — set comparison -/

theorem extraVals_append_maps (ms es : List El) :
    extraVals (ms.map Diff.missing ++ es.map Diff.extra) = es := by
  induction ms with
  | nil =>
    simp only [List.map_nil, List.nil_append]
    induction es with
    | nil => rfl
    | cons x t ih => simpa [extraVals, List.filterMap_cons] using ih
  | cons m t ih => simpa [extraVals, List.filterMap_cons] using ih

theorem missingVals_append_maps (ms es : List El) :
    missingVals (ms.map Diff.missing ++ es.map Diff.extra) = ms := by
  induction ms with
  | nil =>
    simp only [List.map_nil, List.nil_append]
    induction es with
    | nil => rfl
    | cons x t ih => simp [missingVals, List.filterMap_cons]
  | cons m t ih => simpa [missingVals, List.filterMap_cons] using ih

/-- C5: the set comparison result is `None` iff the set of data elements
equals the requirement set; otherwise the `Extra` values are exactly the
data elements not in the requirement and the `Missing` values exactly the
requirement elements not in the data; `NOTFOUND` data behaves as an empty
collection and a single element as a one-element collection. -/
theorem c5_set_comparison :
    ∀ (xs requirementSet : List El) (e : El),
      (requireSet (.coll xs) requirementSet = Option.none
          ↔ xs.toFinset = requirementSet.toFinset)
      ∧ (∀ l, requireSet (.coll xs) requirementSet = some l →
          (extraVals l).toFinset = xs.toFinset \ requirementSet.toFinset
          ∧ (missingVals l).toFinset = requirementSet.toFinset \ xs.toFinset)
      ∧ requireSet .notfound requirementSet = requireSet (.coll []) requirementSet
      ∧ requireSet (.elem e) requirementSet = requireSet (.coll [e]) requirementSet := by
  intro xs req e
  have hmatch : ∀ a, a ∈ (xs.filter (fun x => x ∈ req)).dedup ↔ a ∈ xs ∧ a ∈ req := by
    intro a; simp [List.mem_dedup, List.mem_filter]
  have hextra : ∀ a, a ∈ (xs.filter (fun x => x ∉ req)).dedup ↔ a ∈ xs ∧ a ∉ req := by
    intro a; simp [List.mem_dedup, List.mem_filter]
  have hmiss : ∀ a,
      a ∈ req.filter (fun r => r ∉ (xs.filter (fun x => x ∈ req)).dedup)
        ↔ a ∈ req ∧ a ∉ xs := by
    intro a
    simp only [List.mem_filter, decide_eq_true_eq, hmatch]
    constructor
    · rintro ⟨h1, h2⟩; exact ⟨h1, fun hx => h2 ⟨hx, h1⟩⟩
    · rintro ⟨h1, h2⟩; exact ⟨h1, fun hx => h2 hx.1⟩
  have hrs : requireSet (.coll xs) req
      = if (req.filter (fun r => r ∉ (xs.filter (fun x => x ∈ req)).dedup)).isEmpty
            && ((xs.filter (fun x => x ∉ req)).dedup).isEmpty then
          Option.none
        else
          some ((req.filter
              (fun r => r ∉ (xs.filter (fun x => x ∈ req)).dedup)).map Diff.missing
            ++ ((xs.filter (fun x => x ∉ req)).dedup).map Diff.extra) := rfl
  refine ⟨?_, ?_, rfl, rfl⟩
  · rw [hrs]
    constructor
    · intro hnone
      by_cases hcond : (req.filter
            (fun r => r ∉ (xs.filter (fun x => x ∈ req)).dedup)).isEmpty
          && ((xs.filter (fun x => x ∉ req)).dedup).isEmpty
      · rw [Bool.and_eq_true, List.isEmpty_iff, List.isEmpty_iff] at hcond
        obtain ⟨hm0, he0⟩ := hcond
        ext a
        simp only [List.mem_toFinset]
        constructor
        · intro hx
          by_contra hr
          have hmem := (hextra a).2 ⟨hx, hr⟩
          rw [he0] at hmem
          exact List.not_mem_nil a hmem
        · intro hr
          by_contra hx
          have hmem := (hmiss a).2 ⟨hr, hx⟩
          rw [hm0] at hmem
          exact List.not_mem_nil a hmem
      · rw [if_neg hcond] at hnone
        exact absurd hnone (Option.some_ne_none _)
    · intro hset
      have hm0 : (req.filter
          (fun r => r ∉ (xs.filter (fun x => x ∈ req)).dedup)) = [] := by
        apply List.eq_nil_iff_forall_not_mem.mpr
        intro a ha
        obtain ⟨h1, h2⟩ := (hmiss a).1 ha
        have : a ∈ xs.toFinset := by rw [hset]; exact List.mem_toFinset.mpr h1
        exact h2 (List.mem_toFinset.mp this)
      have he0 : ((xs.filter (fun x => x ∉ req)).dedup) = [] := by
        apply List.eq_nil_iff_forall_not_mem.mpr
        intro a ha
        obtain ⟨h1, h2⟩ := (hextra a).1 ha
        have : a ∈ req.toFinset := by rw [← hset]; exact List.mem_toFinset.mpr h1
        exact h2 (List.mem_toFinset.mp this)
      rw [hm0, he0]
      rfl
  · intro l hl
    rw [hrs] at hl
    by_cases hcond : (req.filter
          (fun r => r ∉ (xs.filter (fun x => x ∈ req)).dedup)).isEmpty
        && ((xs.filter (fun x => x ∉ req)).dedup).isEmpty
    · rw [if_pos hcond] at hl
      exact absurd hl.symm (Option.some_ne_none _)
    · rw [if_neg hcond] at hl
      injection hl with hl
      subst hl
      constructor
      · ext a
        rw [extraVals_append_maps]
        simp only [List.mem_toFinset, Finset.mem_sdiff]
        exact hextra a
      · ext a
        rw [missingVals_append_maps]
        simp only [List.mem_toFinset, Finset.mem_sdiff]
        exact hmiss a

/-! ## C4 — sequence alignment -/

theorem zip_range'_eq_map (s : Nat) :
    ∀ (i j : Nat), (List.range' i s).zip (List.range' j s)
      = (List.range s).map (fun k => (i + k, j + k)) := by
  induction s with
  | zero => intro i j; simp
  | succ n ih =>
    intro i j
    rw [List.range'_succ, List.range'_succ, List.range_succ_eq_map]
    simp only [List.zip_cons_cons, List.map_cons, List.map_map, Nat.add_zero]
    rw [ih (i + 1) (j + 1)]
    refine congrArg (List.cons (i, j)) ?_
    refine List.map_congr_left (fun k _ => ?_)
    simp only [Function.comp_apply, Prod.mk.injEq]
    omega

theorem appendDiff_eq_claimRunDiffs (ds xs : List El) (i1 i2 j1 j2 : Nat)
    (h1 : i1 ≤ i2) (h2 : j1 ≤ j2) :
    appendDiff ds xs i1 i2 j1 j2 = claimRunDiffs ds xs i1 i2 j1 j2 := by
  by_cases hi : i1 = i2 <;> by_cases hj : j1 = j2
  · subst hi; subst hj
    rw [appendDiff, claimRunDiffs]
    simp
  · subst hi
    rw [appendDiff, claimRunDiffs]
    simp [hj]
  · subst hj
    rw [appendDiff, claimRunDiffs]
    simp [hi]
  · have hi2 : i1 < i2 := lt_of_le_of_ne h1 hi
    have hj2 : j1 < j2 := lt_of_le_of_ne h2 hj
    rw [appendDiff, claimRunDiffs]
    rw [if_neg hj, if_neg hi, if_neg hi, if_neg hj]
    simp only [zip_range'_eq_map, List.map_map]
    have hs1 : 1 ≤ min (i2 - i1) (j2 - j1) := by omega
    by_cases hle : i2 - i1 ≤ j2 - j1
    · have hsv : min (i2 - i1) (j2 - j1) = i2 - i1 := by omega
      have hieq : i1 + min (i2 - i1) (j2 - j1) = i2 := by omega
      by_cases hjeq : j1 + min (i2 - i1) (j2 - j1) = j2
      · rw [if_neg (by omega : ¬ (min (i2 - i1) (j2 - j1) ≠ 0
            ∧ (i1 + min (i2 - i1) (j2 - j1) ≠ i2
              ∨ j1 + min (i2 - i1) (j2 - j1) ≠ j2)))]
        rw [if_neg (by omega : ¬ i1 + min (i2 - i1) (j2 - j1) ≠ i2)]
        rw [if_neg (by omega : ¬ j1 + min (i2 - i1) (j2 - j1) ≠ j2)]
        simp [Function.comp_def]
      · rw [if_pos ⟨by omega, Or.inr hjeq⟩]
        rw [if_neg (by omega : ¬ i1 + min (i2 - i1) (j2 - j1) ≠ i2)]
        rw [if_pos hjeq]
        rw [appendDiff]
        rw [if_neg (by omega : ¬ j1 + min (i2 - i1) (j2 - j1) = j2)]
        rw [if_pos hieq]
        rw [hieq]
        simp [Function.comp_def]
    · have hsv : min (i2 - i1) (j2 - j1) = j2 - j1 := by omega
      have hjeq : j1 + min (i2 - i1) (j2 - j1) = j2 := by omega
      have hieq : i1 + min (i2 - i1) (j2 - j1) ≠ i2 := by omega
      rw [if_pos ⟨by omega, Or.inl hieq⟩]
      rw [if_pos hieq]
      rw [appendDiff]
      rw [if_pos hjeq]
      rw [hjeq]
      simp [Function.comp_def]

theorem seqFold_eq (ds xs : List El) :
    ∀ (ops : List Opcode), (∀ op ∈ ops, op.i1 ≤ op.i2 ∧ op.j1 ≤ op.j2) →
      ∀ acc, (ops.foldl
          (fun acc op =>
            if op.tag = "equal" then acc
            else acc ++ appendDiff ds xs op.i1 op.i2 op.j1 op.j2) acc)
        = acc ++ (ops.filter (fun op => op.tag ≠ "equal")).flatMap
            (fun op => claimRunDiffs ds xs op.i1 op.i2 op.j1 op.j2) := by
  intro ops
  induction ops with
  | nil => intro _ acc; simp
  | cons op t ih =>
    intro hops acc
    have hop := hops op (List.mem_cons_self op t)
    have ht : ∀ o ∈ t, o.i1 ≤ o.i2 ∧ o.j1 ≤ o.j2 :=
      fun o ho => hops o (List.mem_cons_of_mem op ho)
    by_cases h : op.tag = "equal"
    · simp only [List.foldl_cons, if_pos h, List.filter_cons]
      rw [ih ht acc]
      simp [h]
    · simp only [List.foldl_cons, if_neg h, List.filter_cons]
      rw [ih ht (acc ++ appendDiff ds xs op.i1 op.i2 op.j1 op.j2)]
      rw [appendDiff_eq_claimRunDiffs ds xs _ _ _ _ hop.1 hop.2]
      simp [h, List.append_assoc]

/-- C4: every non-equal opcode run is converted exactly as claimed — pure
insertion to `Missing(sequence[j])` keyed `(i1, j)`, pure removal to
`Extra(data[i])` keyed `(i, j1)`, and a mixed replace to the pairwise
`Invalid(data[i], sequence[j])` zip of the shorter span followed by the
recursively classified leftover tail — and the overall result of the
sequence comparison is the keyed difference mapping collected from all
non-equal runs, or `None` when no differences exist. -/
theorem c4_sequence_alignment (ds xs : List El) (i1 i2 j1 j2 : Nat)
    (ops : List Opcode) (hi : i1 ≤ i2) (hj : j1 ≤ j2)
    (hops : ∀ op ∈ ops, op.i1 ≤ op.i2 ∧ op.j1 ≤ op.j2) :
    appendDiff ds xs i1 i2 j1 j2 = claimRunDiffs ds xs i1 i2 j1 j2
    ∧ requireSequence (fun _ _ => ops) (.coll ds) xs
        = .ok (claimSeqResult ds xs ops) := by
  refine ⟨appendDiff_eq_claimRunDiffs ds xs i1 i2 j1 j2 hi hj, ?_⟩
  have hfold := seqFold_eq ds xs ops hops []
  simp only [requireSequence, claimSeqResult]
  rw [hfold]
  simp

/-- C4 witness: an equal run followed by a mixed replace with a removal
tail, at concrete lists. -/
theorem c4_sequence_alignment_witness :
    appendDiff dsW xsW 1 4 1 2 = claimRunDiffs dsW xsW 1 4 1 2
    ∧ requireSequence (fun _ _ => opsW) (.coll dsW) xsW
        = .ok (claimSeqResult dsW xsW opsW) :=
  c4_sequence_alignment dsW xsW 1 4 1 2 opsW (by decide) (by decide) (by decide)

/-! ## C1 — mapping comparator key-completeness -/

/-- C1: the code contradicts the claim's absent-key clause.  With an empty
data mapping and requirement `{"a": 1}`, the requirement-only loop
(require.py line 260) dereferences the loop variable `actual`, which the
never-executed data loop would have bound, so Python raises
`UnboundLocalError` and the absent key `"a"` yields no difference — where
the claim promises a difference dispatched against `NOTFOUND`.  With a
non-empty data mapping the same requirement behaves as claimed: data key
`"b"` and absent requirement key `"a"` each appear exactly once. -/
theorem c1_mapping_walk_unbound_local :
    applyMappingRequirement sm0 pyEqO (.mapD []) [("a", .rscalar (some (.int 1)))]
        = .error .nameErr
    ∧ applyMappingRequirement sm0 pyEqO (.mapD [("b", .elem (.int 2))])
          [("a", .rscalar (some (.int 1)))]
        = .ok [("b", .one (.deviation 2 Option.none)),
               ("a", .one (.deviation (-1) (some (.int 1))))] := by
  exact ⟨rfl, by decide⟩

/-! ## C10 — MultiSource.sum -/

theorem keySum_eq_zero (items : List (String × Int)) (k : String)
    (h : items.any (fun kv => kv.1 = k) = false) : keySum items k = 0 := by
  unfold keySum
  have hall := List.any_eq_false.mp h
  have hnil : items.filter (fun kv => kv.1 = k) = [] :=
    List.filter_eq_nil_iff.mpr hall
  rw [hnil]
  rfl

theorem dictAdd_lookup (k k' : String) (v : Int) :
    ∀ (acc : List (String × Int)),
      (dictAdd acc k v).lookup k'
        = if k' = k then some (((acc.lookup k').getD 0) + v)
          else acc.lookup k' := by
  intro acc
  induction acc with
  | nil =>
    by_cases h : k' = k
    · subst h; simp [dictAdd, List.lookup_cons]
    · have hb : (k' == k) = false := beq_eq_false_iff_ne.mpr h
      simp [dictAdd, List.lookup_cons, hb, h]
  | cons kv rest ih =>
    obtain ⟨k0, v0⟩ := kv
    by_cases h1 : k = k0
    · subst h1
      by_cases h2 : k' = k
      · subst h2; simp [dictAdd, List.lookup_cons]
      · have hb : (k' == k) = false := beq_eq_false_iff_ne.mpr h2
        simp [dictAdd, List.lookup_cons, hb, h2]
    · by_cases h2 : k' = k0
      · subst h2
        have h3 : ¬ (k' = k) := fun hh => h1 hh.symm
        have hb : (k' == k') = true := beq_self_eq_true k'
        simp [dictAdd, h1, List.lookup_cons, hb, h3]
      · have hb : (k' == k0) = false := beq_eq_false_iff_ne.mpr h2
        simp [dictAdd, h1, List.lookup_cons, hb, h2, ih]

theorem foldItems_lookup (k : String) :
    ∀ (items : List (String × Int)) (acc : List (String × Int)),
      ((items.foldl (fun a kv => dictAdd a kv.1 kv.2) acc).lookup k)
        = if (acc.lookup k).isSome || items.any (fun kv => kv.1 = k) then
            some ((acc.lookup k).getD 0 + keySum items k)
          else Option.none := by
  intro items
  induction items with
  | nil =>
    intro acc
    simp only [List.foldl_nil, List.any_nil, Bool.or_false, keySum,
      List.filter_nil, List.map_nil, List.sum_nil]
    cases h : acc.lookup k <;> simp [h]
  | cons kv rest ih =>
    intro acc
    obtain ⟨k0, v0⟩ := kv
    simp only [List.foldl_cons]
    rw [ih (dictAdd acc k0 v0)]
    have hd := dictAdd_lookup k0 k v0 acc
    by_cases h : k = k0
    · subst h
      rw [if_pos rfl] at hd
      rw [hd]
      have hks : keySum ((k, v0) :: rest) k = v0 + keySum rest k := by
        simp [keySum, List.filter_cons]
      simp [hks]; omega
    · rw [if_neg h] at hd
      rw [hd]
      have h' : ¬ (k0 = k) := fun hh => h hh.symm
      have hks : keySum ((k0, v0) :: rest) k = keySum rest k := by
        simp [keySum, List.filter_cons, h']
      have hdec : (decide (k0 = k)) = false := by simp [h']
      simp only [hks, List.any_cons, hdec, Bool.false_or]

theorem foldSources_lookup (k : String) :
    ∀ (sources : List SrcModel) (acc : List (String × Int)),
      ((sources.foldl
          (fun acc s => s.keyed.foldl (fun a kv => dictAdd a kv.1 kv.2) acc)
          acc).lookup k)
        = if (acc.lookup k).isSome
              || sources.any (fun s => s.keyed.any (fun kv => kv.1 = k)) then
            some ((acc.lookup k).getD 0
              + (sources.map (fun s => keySum s.keyed k)).sum)
          else Option.none := by
  intro sources
  induction sources with
  | nil =>
    intro acc
    simp only [List.foldl_nil, List.any_nil, Bool.or_false, List.map_nil,
      List.sum_nil]
    cases h : acc.lookup k <;> simp [h]
  | cons s rest ih =>
    intro acc
    simp only [List.foldl_cons]
    rw [ih]
    have hi := foldItems_lookup k s.keyed acc
    by_cases hs : ((acc.lookup k).isSome || s.keyed.any (fun kv => kv.1 = k)) = true
    · rw [if_pos hs] at hi
      rw [hi]
      have hcond : ((acc.lookup k).isSome
          || (s.keyed.any (fun kv => kv.1 = k)
              || rest.any (fun s => s.keyed.any (fun kv => kv.1 = k)))) = true := by
        rw [Bool.or_eq_true] at hs
        rcases hs with h1 | h1 <;> simp [h1]
      simp [hcond]; omega
    · rw [if_neg hs] at hi
      rw [hi]
      have ha' : (acc.lookup k).isSome = false := by
        cases hB : (acc.lookup k).isSome
        · rfl
        · exact absurd (by simp [hB] : ((acc.lookup k).isSome
            || s.keyed.any (fun kv => kv.1 = k)) = true) hs
      have hb' : s.keyed.any (fun kv => kv.1 = k) = false := by
        cases hB : s.keyed.any (fun kv => kv.1 = k)
        · rfl
        · exact absurd (by simp [hB] : ((acc.lookup k).isSome
            || s.keyed.any (fun kv => kv.1 = k)) = true) hs
      have hgd : (acc.lookup k).getD 0 = 0 := by
        cases hB : acc.lookup k
        · rfl
        · rw [hB] at ha'; simp at ha'
      simp only [ha', hb', hgd, keySum_eq_zero s.keyed k hb', Bool.false_or,
        List.map_cons, List.sum_cons, zero_add, Option.isSome_none,
        Option.getD_none, List.any_cons]

theorem keySum_eq_lookup (k : String) :
    ∀ (items : List (String × Int)), (items.map Prod.fst).Nodup →
      keySum items k = ((items.lookup k).getD 0) := by
  intro items
  induction items with
  | nil => intro _; rfl
  | cons kv rest ih =>
    intro hnd
    obtain ⟨k0, v0⟩ := kv
    simp only [List.map_cons, List.nodup_cons] at hnd
    obtain ⟨hk0, hrest⟩ := hnd
    by_cases h : k0 = k
    · subst h
      have hz : keySum rest k0 = 0 := by
        apply keySum_eq_zero
        rw [List.any_eq_false]
        intro kv hkv hc
        exact hk0 (List.mem_map.mpr ⟨kv, hkv, of_decide_eq_true hc⟩)
      have hc : keySum ((k0, v0) :: rest) k0 = v0 + keySum rest k0 := by
        simp [keySum, List.filter_cons]
      rw [hc, hz, List.lookup_cons_self]
      simp
    · have hb : (k == k0) = false := beq_eq_false_iff_ne.mpr (fun hh => h hh.symm)
      have hks : keySum ((k0, v0) :: rest) k = keySum rest k := by
        simp [keySum, List.filter_cons, h]
      rw [hks, List.lookup_cons, hb, ih hrest]

/-- C10: with a non-empty `keys` argument, `MultiSource.sum` returns a
per-key mapping in which each key's value is the sum over all wrapped
sources of that source's per-key sum for the column, a key absent from a
source contributing zero to its total; with a falsy `keys` argument it
returns the plain arithmetic total of the per-source sums. -/
theorem c10_multisource_sum (keys : List String) (sources : List SrcModel)
    (hkeys : keys ≠ [])
    (hnd : ∀ s ∈ sources, (s.keyed.map Prod.fst).Nodup) :
    multiSourceSum [] sources = .num ((sources.map SrcModel.total).sum)
    ∧ ∃ d, multiSourceSum keys sources = .dict d
        ∧ ∀ k : String,
            d.lookup k
              = if sources.any (fun s => s.keyed.any (fun kv => kv.1 = k)) then
                  some ((sources.map
                      (fun s => ((s.keyed.lookup k).getD 0))).sum)
                else Option.none := by
  constructor
  · simp [multiSourceSum, List.sum_eq_foldl]
  · have hke : keys.isEmpty = false := by
      cases hk : keys.isEmpty
      · rfl
      · exact absurd (List.isEmpty_iff.mp hk) hkeys
    refine ⟨sources.foldl
        (fun acc s => s.keyed.foldl (fun a kv => dictAdd a kv.1 kv.2) acc) [],
      by simp [multiSourceSum, hke], fun k => ?_⟩
    have hlk := foldSources_lookup k sources []
    simp only [List.lookup_nil, Option.isSome_none, Bool.false_or,
      Option.getD_none, zero_add] at hlk
    rw [hlk]
    by_cases hany : sources.any
        (fun s => s.keyed.any (fun kv => kv.1 = k)) = true
    · rw [if_pos hany, if_pos hany]
      congr 1
      refine congrArg List.sum ?_
      apply List.map_congr_left
      intro s hs
      rw [keySum_eq_lookup k s.keyed (hnd s hs)]
    · rw [if_neg hany, if_neg hany]

/-- C10 witness: two concrete sources with overlapping key sets. -/
theorem c10_multisource_sum_witness :
    multiSourceSum [] srcsW = .num ((srcsW.map SrcModel.total).sum)
    ∧ ∃ d, multiSourceSum ["g"] srcsW = .dict d
        ∧ ∀ k : String,
            d.lookup k
              = if srcsW.any (fun s => s.keyed.any (fun kv => kv.1 = k)) then
                  some ((srcsW.map
                      (fun s => ((s.keyed.lookup k).getD 0))).sum)
                else Option.none :=
  c10_multisource_sum ["g"] srcsW (by decide) (by decide)

/-- C5 witness: a concrete instantiation discharging the hypotheses of the
per-result characterisation. -/
theorem c5_set_comparison_witness :
    (extraVals [Diff.missing (.int 9), Diff.extra (.int 2)]).toFinset
        = [El.int 1, El.int 2].toFinset \ [El.int 1, El.int 9].toFinset
    ∧ (missingVals [Diff.missing (.int 9), Diff.extra (.int 2)]).toFinset
        = [El.int 1, El.int 9].toFinset \ [El.int 1, El.int 2].toFinset :=
  (c5_set_comparison [El.int 1, El.int 2] [El.int 1, El.int 9] (El.int 0)).2.1
    [Diff.missing (.int 9), Diff.extra (.int 2)] (by decide)

/-! ## C7 — deep hash terminates on cyclic structures -/

theorem unseenCnt_push (h : List Obj) (st : HSt) (ref : Nat)
    (hlt : ref < h.length) (hun : st.seen.lookup ref = Option.none) :
    unseenCnt h (st.push ref) + 1 = unseenCnt h st := by
  unfold unseenCnt
  have hmem : ref ∈ (Finset.range h.length).filter
      (fun i => st.seen.lookup i = Option.none) := by
    simp [Finset.mem_filter, Finset.mem_range, hlt, hun]
  have hset : (Finset.range h.length).filter
        (fun i => (st.push ref).seen.lookup i = Option.none)
      = ((Finset.range h.length).filter
          (fun i => st.seen.lookup i = Option.none)).erase ref := by
    ext i
    simp only [Finset.mem_erase, Finset.mem_filter, Finset.mem_range, HSt.push,
      List.lookup_cons]
    constructor
    · rintro ⟨hir, hlook⟩
      by_cases hie : i = ref
      · subst hie
        simp at hlook
      · have hb : (i == ref) = false := beq_eq_false_iff_ne.mpr hie
        rw [hb] at hlook
        exact ⟨hie, hir, hlook⟩
    · rintro ⟨hie, hir, hlook⟩
      have hb : (i == ref) = false := beq_eq_false_iff_ne.mpr hie
      rw [hb]
      exact ⟨hir, hlook⟩
  rw [hset, Finset.card_erase_of_mem hmem]
  have hpos : 0 < ((Finset.range h.length).filter
      (fun i => st.seen.lookup i = Option.none)).card :=
    Finset.card_pos.mpr ⟨ref, hmem⟩
  omega

/-- The memo table guarantees the fuelled traversal succeeds: fuel exceeding
the number of unseen heap ids never runs out, because every level of nesting
first marks an unseen id as seen. -/
theorem proxyAllSucc :
    ∀ (fuel : Nat) (h : List Obj), HeapWF h →
      PSucc fuel h ∧ PLSucc fuel h ∧ PMSucc fuel h := by
  intro fuel
  induction fuel using Nat.strong_induction_on with
  | _ fuel ih =>
    intro h hwf
    have hp : PSucc fuel h := by
      unfold PSucc
      cases fuel with
      | zero => intro st ref _ hf; omega
      | succ f =>
        intro st ref href hf
        have hplf : PLSucc f h := ((ih f (Nat.lt_succ_self f)) h hwf).2.1
        have hpmf : PMSucc f h := ((ih f (Nat.lt_succ_self f)) h hwf).2.2
        cases ho : h[ref]? with
        | none =>
          exfalso
          rw [List.getElem?_eq_none_iff] at ho
          omega
        | some o =>
          obtain ⟨hrefs, hbad⟩ := hwf o (List.getElem?_mem ho)
          cases o with
          | atom n =>
            refine ⟨.patom n, st, ?_, le_refl _⟩
            simp [hashableProxy, ho]
          | olist rs =>
            cases hseen : st.seen.lookup ref with
            | some t =>
              refine ⟨.ptoken t, st, ?_, le_refl _⟩
              simp [hashableProxy, ho, hseen]
            | none =>
              have hdec := unseenCnt_push h st ref href hseen
              have hchild : ∀ r ∈ rs, r < h.length := by
                intro r hr
                simp only [refsOk, List.all_eq_true, decide_eq_true_eq] at hrefs
                exact hrefs r hr
              obtain ⟨ps, st2, heq, hle⟩ :=
                hplf (st.push ref) rs hchild (by omega)
              refine ⟨.plist ps, st2, ?_, by omega⟩
              simp [hashableProxy, ho, hseen, heq, Except.map]
          | oset rs =>
            cases hseen : st.seen.lookup ref with
            | some t =>
              refine ⟨.ptoken t, st, ?_, le_refl _⟩
              simp [hashableProxy, ho, hseen]
            | none =>
              have hdec := unseenCnt_push h st ref href hseen
              have hchild : ∀ r ∈ rs, r < h.length := by
                intro r hr
                simp only [refsOk, List.all_eq_true, decide_eq_true_eq] at hrefs
                exact hrefs r hr
              obtain ⟨ps, st2, heq, hle⟩ :=
                hplf (st.push ref) rs hchild (by omega)
              refine ⟨.pset ps, st2, ?_, by omega⟩
              simp [hashableProxy, ho, hseen, heq, Except.map]
          | omap es =>
            cases hseen : st.seen.lookup ref with
            | some t =>
              refine ⟨.ptoken t, st, ?_, le_refl _⟩
              simp [hashableProxy, ho, hseen]
            | none =>
              have hdec := unseenCnt_push h st ref href hseen
              have hchild : ∀ e ∈ es, e.2 < h.length := by
                intro e he
                simp only [refsOk, List.all_eq_true, decide_eq_true_eq] at hrefs
                exact hrefs e he
              obtain ⟨qs, st2, heq, hle⟩ :=
                hpmf (st.push ref) es hchild (by omega)
              refine ⟨.pmap qs, st2, ?_, by omega⟩
              simp [hashableProxy, ho, hseen, heq, Except.map]
          | obad => exact absurd rfl hbad
    have hpl : PLSucc fuel h := by
      unfold PLSucc
      intro st rs
      induction rs generalizing st with
      | nil =>
        intro _ _
        exact ⟨[], st, by simp [proxyList], le_refl _⟩
      | cons r rs ihl =>
        intro hrs hf
        obtain ⟨p, st1, heq1, hle1⟩ :=
          hp st r (hrs r (List.mem_cons_self r rs)) hf
        obtain ⟨ps, st2, heq2, hle2⟩ :=
          ihl st1 (fun x hx => hrs x (List.mem_cons_of_mem r hx)) (by omega)
        refine ⟨p :: ps, st2, ?_, by omega⟩
        simp [proxyList, heq1, heq2]
    have hpm : PMSucc fuel h := by
      unfold PMSucc
      intro st es
      induction es generalizing st with
      | nil =>
        intro _ _
        exact ⟨[], st, by simp [proxyMap], le_refl _⟩
      | cons e es ihm =>
        intro hes hf
        obtain ⟨k, r⟩ := e
        obtain ⟨p, st1, heq1, hle1⟩ :=
          hp st r (hes (k, r) (List.mem_cons_self (k, r) es)) hf
        obtain ⟨qs, st2, heq2, hle2⟩ :=
          ihm st1 (fun x hx => hes x (List.mem_cons_of_mem (k, r) hx)) (by omega)
        refine ⟨(k, p) :: qs, st2, ?_, by omega⟩
        simp [proxyMap, heq1, heq2]
    exact ⟨hp, hpl, hpm⟩

/-- C7: on every well-formed heap of sequences, sets, mappings and hashable
atoms — cyclic references included — the deep hash terminates and returns a
hash code without raising: already-visited object identities are memoized
and a revisit short-circuits to the placeholder token instead of recursing. -/
theorem c7_deephash_cycle_safe (h : List Obj) (ref : Nat)
    (hwf : HeapWF h) (href : ref < h.length) :
    ∃ p, deephashProxy h ref = .ok p
      ∧ ∀ tok, deephash tok h ref = .ok (hashP tok p) := by
  have hle : unseenCnt h (⟨[], 0⟩ : HSt) ≤ h.length := by
    unfold unseenCnt
    calc ((Finset.range h.length).filter
          (fun i => (HSt.mk [] 0).seen.lookup i = Option.none)).card
        ≤ (Finset.range h.length).card := Finset.card_filter_le _ _
      _ = h.length := Finset.card_range _
  obtain ⟨p, st', heq, _⟩ :=
    (proxyAllSucc (h.length + 1) h hwf).1 ⟨[], 0⟩ ref href (by omega)
  refine ⟨p, ?_, fun tok => ?_⟩
  · simp [deephashProxy, heq, Except.map]
  · simp [deephash, deephashProxy, heq, Except.map]

/-- C7 witness: the self-referential list `x = []; x.append(x)`. -/
theorem c7_deephash_cycle_safe_witness :
    HeapWF cyclicHeap
    ∧ ∃ p, deephashProxy cyclicHeap 0 = .ok p
        ∧ ∀ tok, deephash tok cyclicHeap 0 = .ok (hashP tok p) :=
  ⟨by unfold HeapWF; decide,
   c7_deephash_cycle_safe cyclicHeap 0 (by unfold HeapWF; decide) (by decide)⟩

/-! ## C6 — structurally identical values and deep hashing -/

unseal hashableProxy proxyList proxyMap in
/-- C6, counterexample.  `A = [x, x]` with one shared sublist `x = [1, 2]`
and `B = [[1, 2], [1, 2]]` with two distinct sublists are independently
constructed, structurally identical (`A == B` in Python) unhashable
compounds, yet they deep-hash differently: the second occurrence of `x` in
`A` short-circuits to the traversal's memo token — a fresh `object()` whose
hash is identity-based, here the environment `tok0` — while `B`'s proxy
repeats the real sublist proxy.  So the two deep hashes disagree (and `A`'s
is not even reproducible across runs, the token hash being fresh each
time). -/
theorem c6_deephash_counterexample :
    valueEq sharedHeap unsharedHeap 10 3 4 = true
    ∧ (deephash tok0 sharedHeap 3).isOk = true
    ∧ (deephash tok0 unsharedHeap 4).isOk = true
    ∧ (deephash tok0 sharedHeap 3).toOption
        ≠ (deephash tok0 unsharedHeap 4).toOption := by
  refine ⟨by decide, by decide, by decide, by decide⟩

theorem sizeT_pos : ∀ t : PyTree, 1 ≤ sizeT t := by
  intro t
  cases t with
  | tatom n => simp [sizeT]
  | tlist ts => simp [sizeT]
  | tset ts => simp [sizeT]
  | tmap es => simp [sizeT]

theorem buildShapeAll :
    ∀ n : Nat, (∀ t, sizeT t ≤ n → BShape t)
      ∧ (∀ ts, sizeTL ts ≤ n → BShapeL ts)
      ∧ (∀ es, sizeTM es ≤ n → BShapeM es) := by
  intro n
  induction n with
  | zero =>
    refine ⟨fun t ht => absurd ht (by have := sizeT_pos t; omega), ?_, ?_⟩
    · intro ts hts
      cases ts with
      | nil =>
        intro pre
        exact ⟨⟨[], (List.append_nil pre).symm⟩, by simp [buildL, sizeTL]⟩
      | cons t ts' =>
        exfalso
        have := sizeT_pos t
        simp [sizeTL] at hts
        omega
    · intro es hes
      cases es with
      | nil =>
        intro pre
        exact ⟨⟨[], (List.append_nil pre).symm⟩, by simp [buildM, sizeTM]⟩
      | cons e es' =>
        exfalso
        obtain ⟨k, t⟩ := e
        have := sizeT_pos t
        simp [sizeTM] at hes
        omega
  | succ n ihn =>
    obtain ⟨iht, ihl, ihm⟩ := ihn
    have hT : ∀ t, sizeT t ≤ n + 1 → BShape t := by
      intro t ht pre
      cases t with
      | tatom m =>
        refine ⟨⟨[.atom m], rfl⟩, ?_, ?_⟩ <;> simp [build, sizeT]
      | tlist ts =>
        have hts : sizeTL ts ≤ n := by simp [sizeT] at ht; omega
        obtain ⟨⟨δ, hδ⟩, hlen⟩ := ihl ts hts pre
        refine ⟨⟨δ ++ [.olist (buildL pre ts).2], ?_⟩, ?_, ?_⟩
        · simp only [build]
          rw [hδ, List.append_assoc]
        · simp only [build, sizeT, List.length_append, List.length_cons,
            List.length_nil]
          omega
        · simp only [build, sizeT]
          omega
      | tset ts =>
        have hts : sizeTL ts ≤ n := by simp [sizeT] at ht; omega
        obtain ⟨⟨δ, hδ⟩, hlen⟩ := ihl ts hts pre
        refine ⟨⟨δ ++ [.oset (buildL pre ts).2], ?_⟩, ?_, ?_⟩
        · simp only [build]
          rw [hδ, List.append_assoc]
        · simp only [build, sizeT, List.length_append, List.length_cons,
            List.length_nil]
          omega
        · simp only [build, sizeT]
          omega
      | tmap es =>
        have hes : sizeTM es ≤ n := by simp [sizeT] at ht; omega
        obtain ⟨⟨δ, hδ⟩, hlen⟩ := ihm es hes pre
        refine ⟨⟨δ ++ [.omap (buildM pre es).2], ?_⟩, ?_, ?_⟩
        · simp only [build]
          rw [hδ, List.append_assoc]
        · simp only [build, sizeT, List.length_append, List.length_cons,
            List.length_nil]
          omega
        · simp only [build, sizeT]
          omega
    refine ⟨hT, ?_, ?_⟩
    · intro ts hts
      cases ts with
      | nil =>
        intro pre
        exact ⟨⟨[], (List.append_nil pre).symm⟩, by simp [buildL, sizeTL]⟩
      | cons t ts' =>
        intro pre
        have h1 : sizeT t ≤ n + 1 := by
          simp [sizeTL] at hts; omega
        have h2 : sizeTL ts' ≤ n := by
          have := sizeT_pos t
          simp [sizeTL] at hts; omega
        obtain ⟨⟨δ1, hδ1⟩, hlen1, _⟩ := hT t h1 pre
        obtain ⟨⟨δ2, hδ2⟩, hlen2⟩ := ihl ts' h2 (build pre t).1
        constructor
        · refine ⟨δ1 ++ δ2, ?_⟩
          simp only [buildL]
          rw [hδ2, hδ1, List.append_assoc]
        · simp only [buildL, sizeTL]
          rw [hlen2, hlen1]
          omega
    · intro es hes
      cases es with
      | nil =>
        intro pre
        exact ⟨⟨[], (List.append_nil pre).symm⟩, by simp [buildM, sizeTM]⟩
      | cons e es' =>
        intro pre
        obtain ⟨k, t⟩ := e
        have h1 : sizeT t ≤ n + 1 := by
          simp [sizeTM] at hes; omega
        have h2 : sizeTM es' ≤ n := by
          have := sizeT_pos t
          simp [sizeTM] at hes; omega
        obtain ⟨⟨δ1, hδ1⟩, hlen1, _⟩ := hT t h1 pre
        obtain ⟨⟨δ2, hδ2⟩, hlen2⟩ := ihm es' h2 (build pre t).1
        constructor
        · refine ⟨δ1 ++ δ2, ?_⟩
          simp only [buildM]
          rw [hδ2, hδ1, List.append_assoc]
        · simp only [buildM, sizeTM]
          rw [hlen2, hlen1]
          omega

theorem bshape (t : PyTree) : BShape t :=
  (buildShapeAll (sizeT t)).1 t (le_refl _)

theorem bshapeL (ts : List PyTree) : BShapeL ts :=
  (buildShapeAll (sizeTL ts)).2.1 ts (le_refl _)

theorem bshapeM (es : List (Int × PyTree)) : BShapeM es :=
  (buildShapeAll (sizeTM es)).2.2 es (le_refl _)

theorem push_lookup (st : HSt) (ref i : Nat) :
    (st.push ref).seen.lookup i
      = if i = ref then some st.next else st.seen.lookup i := by
  by_cases h : i = ref
  · subst h; simp [HSt.push, List.lookup_cons]
  · have hb : (i == ref) = false := beq_eq_false_iff_ne.mpr h
    simp [HSt.push, List.lookup_cons, hb, h]

/-- The traversal of a freshly built value is its pure structural proxy:
proved level by level on the allocation size, the children of a node being
strictly smaller. -/
theorem buildTravAll :
    ∀ n : Nat, (∀ t, sizeT t ≤ n → BuildTrav t)
      ∧ (∀ ts, sizeTL ts ≤ n → BuildTravL ts)
      ∧ (∀ es, sizeTM es ≤ n → BuildTravM es) := by
  intro n
  induction n with
  | zero =>
    refine ⟨fun t ht => absurd ht (by have := sizeT_pos t; omega), ?_, ?_⟩
    · intro ts hts
      cases ts with
      | nil =>
        intro pre suf st fuel hreg hfuel
        refine ⟨st, ?_, fun i hi => Or.inl hi⟩
        simp [buildL, proxyList, treeProxyL]
      | cons t ts' =>
        exfalso; have := sizeT_pos t; simp [sizeTL] at hts; omega
    · intro es hes
      cases es with
      | nil =>
        intro pre suf st fuel hreg hfuel
        refine ⟨st, ?_, fun i hi => Or.inl hi⟩
        simp [buildM, proxyMap, treeProxyM]
      | cons e es' =>
        exfalso; obtain ⟨k, t⟩ := e; have := sizeT_pos t
        simp [sizeTM] at hes; omega
  | succ n ihn =>
    obtain ⟨iht, ihl, ihm⟩ := ihn
    have hT : ∀ t, sizeT t ≤ n + 1 → BuildTrav t := by
      intro t ht
      cases t with
      | tatom m =>
        intro pre suf st fuel hreg hfuel
        obtain ⟨f, rfl⟩ : ∃ f, fuel = f + 1 := by
          cases fuel with
          | zero => omega
          | succ f => exact ⟨f, rfl⟩
        refine ⟨st, ?_, fun i hi => Or.inl hi⟩
        simp only [build]
        rw [List.append_assoc]
        have hget : (pre ++ ([Obj.atom m] ++ suf))[pre.length]?
            = some (Obj.atom m) := by
          rw [List.getElem?_append_right (le_refl _)]
          simp
        rw [hashableProxy, hget]
        rfl
      | tlist ts =>
        intro pre suf st fuel hreg hfuel
        have hsz : sizeT (PyTree.tlist ts) = sizeTL ts + 1 := rfl
        have hts : sizeTL ts ≤ n := by omega
        obtain ⟨f, rfl⟩ : ∃ f, fuel = f + 1 := by
          cases fuel with
          | zero => omega
          | succ f => exact ⟨f, rfl⟩
        obtain ⟨⟨δL, hδL⟩, hlenL⟩ := bshapeL ts pre
        have hblen : ((build pre (PyTree.tlist ts)).1).length
            = ((buildL pre ts).1).length + 1 := by
          simp [build]
        have hbroot : (build pre (PyTree.tlist ts)).2
            = ((buildL pre ts).1).length := by
          simp [build]
        have hseen : st.seen.lookup ((buildL pre ts).1).length = Option.none := by
          refine hreg _ (by omega) (by omega)
        obtain ⟨st2, heqL, hconf⟩ := ihl ts hts pre
            ([Obj.olist (buildL pre ts).2] ++ suf)
            (st.push ((buildL pre ts).1).length) f
            (by
              intro i h1 h2
              rw [push_lookup, if_neg (by omega)]
              exact hreg i h1 (by omega))
            (by omega)
        refine ⟨st2, ?_, ?_⟩
        · simp only [build]
          rw [List.append_assoc]
          have hget : ((buildL pre ts).1
              ++ ([Obj.olist (buildL pre ts).2] ++ suf))[((buildL pre ts).1).length]?
              = some (Obj.olist (buildL pre ts).2) := by
            rw [List.getElem?_append_right (le_refl _)]
            simp
          rw [hashableProxy, hget, hseen]
          simp only [heqL, Except.map, treeProxy]
        · intro i hi
          rcases hconf i hi with hin | hregion
          · rw [push_lookup] at hin
            by_cases hir : i = ((buildL pre ts).1).length
            · exact Or.inr ⟨by omega, by omega⟩
            · rw [if_neg hir] at hin
              exact Or.inl hin
          · exact Or.inr ⟨hregion.1, by omega⟩
      | tset ts =>
        intro pre suf st fuel hreg hfuel
        have hsz : sizeT (PyTree.tset ts) = sizeTL ts + 1 := rfl
        have hts : sizeTL ts ≤ n := by omega
        obtain ⟨f, rfl⟩ : ∃ f, fuel = f + 1 := by
          cases fuel with
          | zero => omega
          | succ f => exact ⟨f, rfl⟩
        obtain ⟨⟨δL, hδL⟩, hlenL⟩ := bshapeL ts pre
        have hblen : ((build pre (PyTree.tset ts)).1).length
            = ((buildL pre ts).1).length + 1 := by
          simp [build]
        have hbroot : (build pre (PyTree.tset ts)).2
            = ((buildL pre ts).1).length := by
          simp [build]
        have hseen : st.seen.lookup ((buildL pre ts).1).length = Option.none := by
          refine hreg _ (by omega) (by omega)
        obtain ⟨st2, heqL, hconf⟩ := ihl ts hts pre
            ([Obj.oset (buildL pre ts).2] ++ suf)
            (st.push ((buildL pre ts).1).length) f
            (by
              intro i h1 h2
              rw [push_lookup, if_neg (by omega)]
              exact hreg i h1 (by omega))
            (by omega)
        refine ⟨st2, ?_, ?_⟩
        · simp only [build]
          rw [List.append_assoc]
          have hget : ((buildL pre ts).1
              ++ ([Obj.oset (buildL pre ts).2] ++ suf))[((buildL pre ts).1).length]?
              = some (Obj.oset (buildL pre ts).2) := by
            rw [List.getElem?_append_right (le_refl _)]
            simp
          rw [hashableProxy, hget, hseen]
          simp only [heqL, Except.map, treeProxy]
        · intro i hi
          rcases hconf i hi with hin | hregion
          · rw [push_lookup] at hin
            by_cases hir : i = ((buildL pre ts).1).length
            · exact Or.inr ⟨by omega, by omega⟩
            · rw [if_neg hir] at hin
              exact Or.inl hin
          · exact Or.inr ⟨hregion.1, by omega⟩
      | tmap es =>
        intro pre suf st fuel hreg hfuel
        have hsz : sizeT (PyTree.tmap es) = sizeTM es + 1 := rfl
        have hes : sizeTM es ≤ n := by omega
        obtain ⟨f, rfl⟩ : ∃ f, fuel = f + 1 := by
          cases fuel with
          | zero => omega
          | succ f => exact ⟨f, rfl⟩
        obtain ⟨⟨δM, hδM⟩, hlenM⟩ := bshapeM es pre
        have hblen : ((build pre (PyTree.tmap es)).1).length
            = ((buildM pre es).1).length + 1 := by
          simp [build]
        have hbroot : (build pre (PyTree.tmap es)).2
            = ((buildM pre es).1).length := by
          simp [build]
        have hseen : st.seen.lookup ((buildM pre es).1).length = Option.none := by
          refine hreg _ (by omega) (by omega)
        obtain ⟨st2, heqM, hconf⟩ := ihm es hes pre
            ([Obj.omap (buildM pre es).2] ++ suf)
            (st.push ((buildM pre es).1).length) f
            (by
              intro i h1 h2
              rw [push_lookup, if_neg (by omega)]
              exact hreg i h1 (by omega))
            (by omega)
        refine ⟨st2, ?_, ?_⟩
        · simp only [build]
          rw [List.append_assoc]
          have hget : ((buildM pre es).1
              ++ ([Obj.omap (buildM pre es).2] ++ suf))[((buildM pre es).1).length]?
              = some (Obj.omap (buildM pre es).2) := by
            rw [List.getElem?_append_right (le_refl _)]
            simp
          rw [hashableProxy, hget, hseen]
          simp only [heqM, Except.map, treeProxy]
        · intro i hi
          rcases hconf i hi with hin | hregion
          · rw [push_lookup] at hin
            by_cases hir : i = ((buildM pre es).1).length
            · exact Or.inr ⟨by omega, by omega⟩
            · rw [if_neg hir] at hin
              exact Or.inl hin
          · exact Or.inr ⟨hregion.1, by omega⟩
    refine ⟨hT, ?_, ?_⟩
    · intro ts hts
      cases ts with
      | nil =>
        intro pre suf st fuel hreg hfuel
        refine ⟨st, ?_, fun i hi => Or.inl hi⟩
        simp [buildL, proxyList, treeProxyL]
      | cons t ts' =>
        intro pre suf st fuel hreg hfuel
        have hszL : sizeTL (t :: ts') = sizeT t + sizeTL ts' := rfl
        have hpos := sizeT_pos t
        have h1 : sizeT t ≤ n + 1 := by omega
        have h2 : sizeTL ts' ≤ n := by omega
        obtain ⟨⟨δ1, hδ1⟩, hlen1, _⟩ := bshape t pre
        obtain ⟨⟨δ2, hδ2⟩, hlen2⟩ := bshapeL ts' (build pre t).1
        have hbL1 : (buildL pre (t :: ts')).1 = (buildL (build pre t).1 ts').1 := by
          simp [buildL]
        have hbL2 : (buildL pre (t :: ts')).2
            = (build pre t).2 :: (buildL (build pre t).1 ts').2 := by
          simp [buildL]
        obtain ⟨st1, heq1, hconf1⟩ := hT t h1 pre (δ2 ++ suf) st fuel
            (by
              intro i hi1 hi2
              refine hreg i hi1 ?_
              rw [hbL1]
              omega)
            (by omega)
        have hHeq : (build pre t).1 ++ (δ2 ++ suf)
            = (buildL (build pre t).1 ts').1 ++ suf := by
          rw [hδ2, List.append_assoc]
        rw [hHeq] at heq1
        obtain ⟨st2, heq2, hconf2⟩ := ihl ts' h2 (build pre t).1 suf st1 fuel
            (by
              intro i hi1 hi2
              by_cases hne : st1.seen.lookup i = Option.none
              · exact hne
              · exfalso
                rcases hconf1 i hne with hin | hrg
                · exact hin (hreg i (by omega) (by rw [hbL1]; exact hi2))
                · omega)
            (by omega)
        refine ⟨st2, ?_, ?_⟩
        · rw [hbL1, hbL2]
          simp [proxyList, heq1, heq2, treeProxyL]
        · intro i hi
          rcases hconf2 i hi with hi1 | hrg2
          · rcases hconf1 i hi1 with hin | hrg1
            · exact Or.inl hin
            · refine Or.inr ⟨hrg1.1, ?_⟩
              rw [hbL1]
              omega
          · refine Or.inr ⟨by omega, ?_⟩
            rw [hbL1]
            omega
    · intro es hes
      cases es with
      | nil =>
        intro pre suf st fuel hreg hfuel
        refine ⟨st, ?_, fun i hi => Or.inl hi⟩
        simp [buildM, proxyMap, treeProxyM]
      | cons e es' =>
        intro pre suf st fuel hreg hfuel
        obtain ⟨k, t⟩ := e
        have hszM : sizeTM ((k, t) :: es') = sizeT t + sizeTM es' := rfl
        have hpos := sizeT_pos t
        have h1 : sizeT t ≤ n + 1 := by omega
        have h2 : sizeTM es' ≤ n := by omega
        obtain ⟨⟨δ1, hδ1⟩, hlen1, _⟩ := bshape t pre
        obtain ⟨⟨δ2, hδ2⟩, hlen2⟩ := bshapeM es' (build pre t).1
        have hbM1 : (buildM pre ((k, t) :: es')).1
            = (buildM (build pre t).1 es').1 := by
          simp [buildM]
        have hbM2 : (buildM pre ((k, t) :: es')).2
            = (k, (build pre t).2) :: (buildM (build pre t).1 es').2 := by
          simp [buildM]
        obtain ⟨st1, heq1, hconf1⟩ := hT t h1 pre (δ2 ++ suf) st fuel
            (by
              intro i hi1 hi2
              refine hreg i hi1 ?_
              rw [hbM1]
              omega)
            (by omega)
        have hHeq : (build pre t).1 ++ (δ2 ++ suf)
            = (buildM (build pre t).1 es').1 ++ suf := by
          rw [hδ2, List.append_assoc]
        rw [hHeq] at heq1
        obtain ⟨st2, heq2, hconf2⟩ := ihm es' h2 (build pre t).1 suf st1 fuel
            (by
              intro i hi1 hi2
              by_cases hne : st1.seen.lookup i = Option.none
              · exact hne
              · exfalso
                rcases hconf1 i hne with hin | hrg
                · exact hin (hreg i (by omega) (by rw [hbM1]; exact hi2))
                · omega)
            (by omega)
        refine ⟨st2, ?_, ?_⟩
        · rw [hbM1, hbM2]
          simp [proxyMap, heq1, heq2, treeProxyM]
        · intro i hi
          rcases hconf2 i hi with hi1 | hrg2
          · rcases hconf1 i hi1 with hin | hrg1
            · exact Or.inl hin
            · refine Or.inr ⟨hrg1.1, ?_⟩
              rw [hbM1]
              omega
          · refine Or.inr ⟨by omega, ?_⟩
            rw [hbM1]
            omega

theorem buildTrav (t : PyTree) : BuildTrav t :=
  (buildTravAll (sizeT t)).1 t (le_refl _)

/-- A token-free proxy hashes the same under every token-hash environment. -/
theorem hashPTreeIndepAll :
    ∀ n : Nat,
      (∀ t, sizeT t ≤ n → ∀ tok tok' : Nat → Int,
        hashP tok (treeProxy t) = hashP tok' (treeProxy t))
      ∧ (∀ ts, sizeTL ts ≤ n → ∀ tok tok' : Nat → Int,
          hashSeq tok (treeProxyL ts) = hashSeq tok' (treeProxyL ts)
          ∧ hashComm tok (treeProxyL ts) = hashComm tok' (treeProxyL ts))
      ∧ (∀ es, sizeTM es ≤ n → ∀ tok tok' : Nat → Int,
          hashEntries tok (treeProxyM es) = hashEntries tok' (treeProxyM es)) := by
  intro n
  induction n with
  | zero =>
    refine ⟨fun t ht => absurd ht (by have := sizeT_pos t; omega), ?_, ?_⟩
    · intro ts hts tok tok'
      cases ts with
      | nil => exact ⟨rfl, rfl⟩
      | cons t ts' =>
        exfalso; have := sizeT_pos t; simp [sizeTL] at hts; omega
    · intro es hes tok tok'
      cases es with
      | nil => rfl
      | cons e es' =>
        exfalso; obtain ⟨k, t⟩ := e; have := sizeT_pos t
        simp [sizeTM] at hes; omega
  | succ n ihn =>
    obtain ⟨iht, ihl, ihm⟩ := ihn
    have hT : ∀ t, sizeT t ≤ n + 1 → ∀ tok tok' : Nat → Int,
        hashP tok (treeProxy t) = hashP tok' (treeProxy t) := by
      intro t ht tok tok'
      cases t with
      | tatom m => rfl
      | tlist ts =>
        have hts : sizeTL ts ≤ n := by
          have hsz : sizeT (PyTree.tlist ts) = sizeTL ts + 1 := rfl
          omega
        simp only [treeProxy, hashP]
        rw [(ihl ts hts tok tok').1]
      | tset ts =>
        have hts : sizeTL ts ≤ n := by
          have hsz : sizeT (PyTree.tset ts) = sizeTL ts + 1 := rfl
          omega
        simp only [treeProxy, hashP]
        rw [(ihl ts hts tok tok').2]
      | tmap es =>
        have hes : sizeTM es ≤ n := by
          have hsz : sizeT (PyTree.tmap es) = sizeTM es + 1 := rfl
          omega
        simp only [treeProxy, hashP]
        rw [ihm es hes tok tok']
    refine ⟨hT, ?_, ?_⟩
    · intro ts hts tok tok'
      cases ts with
      | nil => exact ⟨rfl, rfl⟩
      | cons t ts' =>
        have hszL : sizeTL (t :: ts') = sizeT t + sizeTL ts' := rfl
        have hpos := sizeT_pos t
        have h1 : sizeT t ≤ n + 1 := by omega
        have h2 : sizeTL ts' ≤ n := by omega
        obtain ⟨hseq, hcomm⟩ := ihl ts' h2 tok tok'
        constructor
        · simp only [treeProxyL, hashSeq]
          rw [hseq, hT t h1 tok tok']
        · simp only [treeProxyL, hashComm]
          rw [hcomm, hT t h1 tok tok']
    · intro es hes tok tok'
      cases es with
      | nil => rfl
      | cons e es' =>
        obtain ⟨k, t⟩ := e
        have hszM : sizeTM ((k, t) :: es') = sizeT t + sizeTM es' := rfl
        have hpos := sizeT_pos t
        have h1 : sizeT t ≤ n + 1 := by omega
        have h2 : sizeTM es' ≤ n := by omega
        simp only [treeProxyM, hashEntries]
        rw [ihm es' h2 tok tok', hT t h1 tok tok']

/-- C6, amended: for sharing-free values the deep hash is a pure function
of structure.  Building a fresh copy of any tree-shaped compound value on
top of any existing heap — the model of an independent construction — and
deep-hashing it yields exactly `treeHash t`, whatever the base heap and
whatever identity-based hashes this run assigns to memo tokens.  Hence two
independently constructed, structurally identical, sharing-free unhashable
compound values deep-hash identically; the original claim fails only for
values that reach the same object twice (the counterexample above). -/
theorem c6_deephash_structural (h : List Obj) (t : PyTree) (tok : Nat → Int) :
    deephash tok ((build h t).1) ((build h t).2) = .ok (treeHash t) := by
  obtain ⟨⟨δ, hδ⟩, hlen, hroot⟩ := bshape t h
  obtain ⟨st', heq, _⟩ := buildTrav t h [] ⟨[], 0⟩ (((build h t).1).length + 1)
      (fun i _ _ => rfl)
      (by have := sizeT_pos t; omega)
  rw [List.append_nil] at heq
  have hproxy : deephashProxy ((build h t).1) ((build h t).2)
      = .ok (treeProxy t) := by
    simp [deephashProxy, heq, Except.map]
  have hmain : deephash tok ((build h t).1) ((build h t).2)
      = .ok (hashP tok (treeProxy t)) := by
    simp [deephash, hproxy, Except.map]
  rw [hmain]
  unfold treeHash
  rw [(hashPTreeIndepAll (sizeT t)).1 t (le_refl _) tok (fun _ => 0)]

end Datatest
